import Mathlib

/-!
# Printable-characters-counting server: a shallow embedding of `pcc_server.c`

The development follows the source file top-down:

* machine integers (`int`, `uint32_t`, `size_t`) are `Int`/`Nat` with the
  wrap-around written out;
* `pccTable`, `calcPCC`, `printTotalPCC`;
* `readFromFD` and `write2FD`, run against the list of results the
  underlying `read`/`write` calls produce;
* the body of the accept loop (`serveClient`, lines 255-278 of the source);
* the server loop as a step machine in which `handleSIGINT` may run between
  any two steps of `main`.
-/

namespace PCC

/-! ## Machine integers and bytes -/

/-- One octet, as it travels on the wire and sits in memory. -/
abbrev Byte := Fin 256

/-- The value of a byte read through a `char` lvalue (`char` is signed on the
target: octets from 128 upwards read as negative numbers). -/
def charVal (b : Byte) : Int :=
  if b.val < 128 then (b.val : Int) else (b.val : Int) - 256

/-- Conversion of an `int` to `unsigned int`/`uint32_t` (reduction modulo `2^32`). -/
def toU32 (x : Int) : Nat := (x % 4294967296).toNat

/-- The `int` that a 32-bit two's-complement machine stores for the
mathematical integer `x`. -/
def wrapInt32 (x : Int) : Int := (x + 2147483648) % 4294967296 - 2147483648

/-- The result of `uint32_t` arithmetic. -/
def wrapU32 (x : Nat) : Nat := x % 4294967296

/-! ## The histogram -/

/-- The number of slots of `pccTable`: `#define PCCSize 95`. -/
def PCCSize : Nat := 95

/-- The array `unsigned int pccTable[PCCSize]`, slot `i` first. -/
abbrev Table := List Nat

/-- The table after `memset(pccTable, 0, sizeof(uint32_t) * PCCSize)` in `initialize`. -/
def zeroTable : Table := List.replicate PCCSize 0

/-- Memory errors the counting loop can run into. -/
inductive Fault where
  /-- `buf[i]` was read with `i` outside the buffer. -/
  | bufIndex (i : Int)
  /-- `pccTable[i]` was accessed with `i` outside `0 .. PCCSize - 1`. -/
  | tableIndex (i : Int)
  /-- The iteration budget of the model ran out (shown never to happen). -/
  | fuel
  deriving DecidableEq, Repr

deriving instance DecidableEq for Except

/-- The read `buf[i]` of `calcPCC`, for an `int` index `i`. -/
def readBuf (buf : List Byte) (i : Int) : Option Int :=
  if 0 ≤ i then (buf[i.toNat]?).map charVal else none

/-- The statement `pccTable[idx]++` on an `unsigned int` slot. -/
def incrSlot (tbl : Table) (idx : Int) : Option Table :=
  if 0 ≤ idx ∧ idx.toNat < PCCSize then
    some (tbl.set idx.toNat (wrapU32 (tbl.getD idx.toNat 0 + 1)))
  else none

/-- The body of the `for` loop of `calcPCC` for index `i`. -/
def calcPCCBody (buf : List Byte) (i : Int) (pcc : Nat) (tbl : Table) :
    Except Fault (Nat × Table) :=
  match readBuf buf i with
  | none => .error (.bufIndex i)
  | some c =>
    if 32 ≤ c ∧ c ≤ 126 then
      match incrSlot tbl (c - 32) with
      | none => .error (.tableIndex (c - 32))
      | some tbl' => .ok (wrapU32 (pcc + 1), tbl')
    else .ok (pcc, tbl)

/-- The loop `for (...; i < size; i++)` of `calcPCC`, entered with the current
`i` and `pcc`. The test compares `i`, converted to unsigned, with `size`;
`i++` is `int` arithmetic. The first argument bounds the number of iterations. -/
def calcPCCLoop (buf : List Byte) (size : Nat) :
    Nat → Int → Nat → Table → Except Fault (Nat × Table)
  | 0, i, pcc, tbl => if toU32 i < size then .error .fuel else .ok (pcc, tbl)
  | fuel + 1, i, pcc, tbl =>
    if toU32 i < size then
      match calcPCCBody buf i pcc tbl with
      | .error f => .error f
      | .ok (pcc', tbl') => calcPCCLoop buf size fuel (wrapInt32 (i + 1)) pcc' tbl'
    else .ok (pcc, tbl)

/-- The function `uint32_t calcPCC(char *buf, uint32_t size)` run on the table
`tbl`: the value returned and the table afterwards, or the memory error it
runs into. A 32-bit counter has `2^32` values, which bounds the iterations. -/
def calcPCC (buf : List Byte) (size : Nat) (tbl : Table) : Except Fault (Nat × Table) :=
  calcPCCLoop buf size 4294967296 0 0 tbl

/-- The lines `printTotalPCC` prints, each as the pair of arguments given to
`printf("char '%c' : %u times\n", ...)`: the character code and the count. -/
def printTotalPCC (tbl : Table) : List (Nat × Nat) :=
  (List.range PCCSize).map fun i => (i + 32, tbl.getD i 0)

/-! ## The counts, in the words of the specification -/

/-- A byte is printable when its value lies in `[32, 126]`. -/
def printable (b : Byte) : Bool := 32 ≤ b.val && b.val ≤ 126

/-- The number of printable bytes of a buffer. -/
def countPrintable (buf : List Byte) : Nat := buf.countP printable

/-- The number of bytes of `bs` equal to `v`. -/
def occurrences (v : Nat) (bs : List Byte) : Nat := bs.countP fun b => decide (b.val = v)

/-! ## What the loop of `calcPCC` does to `pcc` and to the table, byte by byte

The lemmas `calcPCCBody_at` and `calcPCCLoop_ok` show that these are the
values the loop computes; `countFrom_eq` and `tally_getD` compare them with
the counts above. -/

/-- The value of `pcc` after the loop body has seen the bytes `bs`, one after
the other, each printable one doing `pcc++`. -/
def countFrom (pcc : Nat) (bs : List Byte) : Nat :=
  bs.foldl (fun p b => if printable b then wrapU32 (p + 1) else p) pcc

/-- The table after the loop body has seen the byte `b`: a printable one does
`pccTable[b - 32]++`. -/
def tallyByte (t : Table) (b : Byte) : Table :=
  if printable b then t.set (b.val - 32) (wrapU32 (t.getD (b.val - 32) 0 + 1)) else t

/-- The table after the loop body has seen the bytes `bs`, one after the other. -/
def tally (tbl : Table) (bs : List Byte) : Table := bs.foldl tallyByte tbl

/-- A run of `calcPCC` on each of the buffers `bufs` in turn (each with its
length as `size`), all on the one global table: the values returned and the
table afterwards. -/
def calcPCCSeq (tbl : Table) : List (List Byte) → Except Fault (List Nat × Table)
  | [] => .ok ([], tbl)
  | buf :: bufs =>
    match calcPCC buf buf.length tbl with
    | .error f => .error f
    | .ok (pcc, tbl') =>
      match calcPCCSeq tbl' bufs with
      | .error f => .error f
      | .ok (rets, tbl'') => .ok (pcc :: rets, tbl'')

/-! ## The framed I/O primitives `readFromFD` and `write2FD` -/

/-- The `errno` values the source tests, as `<errno.h>` defines them on the target. -/
def EINTR : Nat := 4

/-- Broken pipe. -/
def EPIPE : Nat := 32

/-- Connection reset by peer. -/
def ECONNRESET : Nat := 104

/-- Connection timed out. -/
def ETIMEDOUT : Nat := 110

/-- The exit status `EXIT_SUCCESS`. -/
def EXIT_SUCCESS : Nat := 0

/-- The exit status `EXIT_FAILURE`. -/
def EXIT_FAILURE : Nat := 1

/-- Conversion to `size_t` (reduction modulo `2^64`). -/
def wrapU64 (x : Int) : Nat := (x % 18446744073709551616).toNat

/-- Conversion of a `size_t` to `ssize_t`. -/
def toS64 (x : Nat) : Int :=
  if x < 9223372036854775808 then (x : Int) else (x : Int) - 18446744073709551616

/-- What one call of `read` does: it stores the bytes `bs` and returns their
number (`data []` is the return value `0`, end of file), or it returns `-1`
and sets `errno`. -/
inductive ReadEv where
  | data (bs : List Byte)
  | fail (errno : Nat)
  deriving DecidableEq, Repr

/-- What one call of `write` does: it takes `k` bytes and returns `k`, or it
returns `-1` and sets `errno`. -/
inductive WriteEv where
  | wrote (k : Nat)
  | fail (errno : Nat)
  deriving DecidableEq, Repr

/-- How a call ends: it returns a value, it ends the process through
`exit(status)`, it never returns because the underlying call never does (no
result is left for it), or it is killed by a memory error. -/
inductive Outcome where
  | returned (v : Int)
  | exited (status : Nat)
  | blocked
  | crashed
  deriving DecidableEq, Repr

/-- The buffer after `read` has stored `bs` at `(char *)buf + off`. -/
def storeAt (buf : List Byte) (off : Int) (bs : List Byte) : List Byte :=
  buf.take off.toNat ++ bs ++ buf.drop (off.toNat + bs.length)

/-- The variables of `readFromFD`, with the buffer and `errno`. -/
structure ReadState where
  buf : List Byte
  totalRead : Int
  need2Read : Int
  numRead : Int
  errno : Nat
  deriving DecidableEq, Repr

/-- One pass through the body of the `while` loop of `readFromFD`, the `read`
call doing `ev`. -/
def readIter (st : ReadState) : ReadEv → ReadState
  | .data bs =>
    { st with
      buf := storeAt st.buf st.totalRead bs
      numRead := bs.length
      totalRead := st.totalRead + bs.length
      need2Read := st.need2Read - bs.length }
  | .fail e =>
    { st with
      numRead := -1
      totalRead := st.totalRead + -1
      need2Read := st.need2Read - -1
      errno := e }

/-- The loop `while (need2Read > 0 && numRead > 0)` of `readFromFD`, against the
results of the coming `read` calls; `none` when a `read` is issued and the
results have run out. -/
def readLoop (st : ReadState) : List ReadEv → Option (ReadState × List ReadEv)
  | [] => if 0 < st.need2Read ∧ 0 < st.numRead then none else some (st, [])
  | ev :: evs =>
    if 0 < st.need2Read ∧ 0 < st.numRead then readLoop (readIter st ev) evs
    else some (st, ev :: evs)

/-- What a call of `readFromFD` leaves behind. -/
structure ReadResult where
  outcome : Outcome
  buf : List Byte
  errno : Nat
  rest : List ReadEv
  deriving DecidableEq, Repr

/-- The error handling of `readFromFD` after its loop (lines 54-66). -/
def readFinish (st : ReadState) : Outcome :=
  if st.numRead ≤ 0 then
    if st.numRead = 0 ∨ st.errno = ETIMEDOUT ∨ st.errno = ECONNRESET ∨ st.errno = EPIPE then
      .returned (-1)
    else .exited EXIT_FAILURE
  else .returned st.totalRead

/-- The variables of `readFromFD` when its loop is entered: the buffer has
been zeroed by `memset(buf, 0, size)`. -/
def readInit (size : Int) (errno : Nat) : ReadState :=
  { buf := List.replicate size.toNat 0, totalRead := 0, need2Read := size, numRead := 1,
    errno := errno }

/-- The function `ssize_t readFromFD(int fd, void *buf, ssize_t size)` of the
server, against the results `evs` of the coming `read` calls on `fd`. A
negative `size` makes `memset` run over the whole address space. -/
def readFromFD (evs : List ReadEv) (size : Int) (errno : Nat) : ReadResult :=
  if size < 0 then { outcome := .crashed, buf := [], errno := errno, rest := evs }
  else
    match readLoop (readInit size errno) evs with
    | none => { outcome := .blocked, buf := [], errno := errno, rest := [] }
    | some (st, rest) =>
      { outcome := readFinish st, buf := st.buf, errno := st.errno, rest := rest }

/-- The variables of `write2FD` (`totalSent` is a `size_t`), with `errno` and
the bytes that have gone out on the descriptor. -/
structure WriteState where
  totalSent : Nat
  need2Send : Int
  numSent : Int
  errno : Nat
  out : List Byte
  deriving DecidableEq, Repr

/-- One pass through the body of the `while` loop of `write2FD`, the `write`
call doing `ev`. -/
def writeIter (buf : List Byte) (st : WriteState) : WriteEv → WriteState
  | .wrote k =>
    { st with
      out := st.out ++ (buf.drop st.totalSent).take k
      numSent := k
      totalSent := wrapU64 (st.totalSent + k)
      need2Send := st.need2Send - k }
  | .fail e =>
    { st with
      numSent := -1
      totalSent := wrapU64 (st.totalSent + -1)
      need2Send := st.need2Send - -1
      errno := e }

/-- The loop `while (need2Send > 0 && numSent > 0)` of `write2FD`. -/
def writeLoop (buf : List Byte) (st : WriteState) :
    List WriteEv → Option (WriteState × List WriteEv)
  | [] => if 0 < st.need2Send ∧ 0 < st.numSent then none else some (st, [])
  | ev :: evs =>
    if 0 < st.need2Send ∧ 0 < st.numSent then writeLoop buf (writeIter buf st ev) evs
    else some (st, ev :: evs)

/-- What a call of `write2FD` leaves behind; `out` holds the bytes it sent. -/
structure WriteResult where
  outcome : Outcome
  out : List Byte
  errno : Nat
  rest : List WriteEv
  deriving DecidableEq, Repr

/-- The error handling of `write2FD` after its loop (lines 90-102). -/
def writeFinish (st : WriteState) : Outcome :=
  if st.numSent ≤ 0 then
    if st.numSent = 0 ∨ st.errno = ETIMEDOUT ∨ st.errno = ECONNRESET ∨ st.errno = EPIPE then
      .returned (-1)
    else .exited EXIT_FAILURE
  else .returned (toS64 st.totalSent)

/-- The variables of `write2FD` when its loop is entered. -/
def writeInit (size : Int) (errno : Nat) : WriteState :=
  { totalSent := 0, need2Send := size, numSent := 1, errno := errno, out := [] }

/-- The function `ssize_t write2FD(int fd, void *buf, ssize_t size)` of the
server, against the results `evs` of the coming `write` calls on `fd`. -/
def write2FD (evs : List WriteEv) (buf : List Byte) (size : Int) (errno : Nat) : WriteResult :=
  match writeLoop buf (writeInit size errno) evs with
  | none => { outcome := .blocked, out := [], errno := errno, rest := [] }
  | some (st, rest) =>
    { outcome := writeFinish st, out := st.out, errno := st.errno, rest := rest }

/-- Every result of `read` is at most the number of bytes requested of it:
`need` bytes are requested of the first call, and what a positive short read
leaves outstanding is requested of the next; once nothing is outstanding no
call is issued and nothing is asked of the results that remain. -/
def validReads : List ReadEv → Int → Bool
  | [], _ => true
  | .fail _ :: _, _ => true
  | .data bs :: evs, need =>
    decide (need ≤ 0) ||
      (decide ((bs.length : Int) ≤ need) && (bs.isEmpty || validReads evs (need - bs.length)))

/-- Every result of `write` is at most the number of bytes requested of it. -/
def validWrites : List WriteEv → Int → Bool
  | [], _ => true
  | .fail _ :: _, _ => true
  | .wrote k :: evs, need =>
    decide (need ≤ 0) ||
      (decide ((k : Int) ≤ need) && (decide (k = 0) || validWrites evs (need - k)))

/-- In the words of the specification: some underlying `read` returned a
result satisfying `p` before `size` bytes were transferred, the calls before
it having returned the non-empty `chunks`. -/
def ReadStopsWith (evs : List ReadEv) (size : Int) (p : ReadEv → Prop) : Prop :=
  ∃ (chunks : List (List Byte)) (ev : ReadEv) (rest : List ReadEv),
    evs = chunks.map ReadEv.data ++ ev :: rest ∧ (∀ c ∈ chunks, c ≠ []) ∧
      (chunks.flatten.length : Int) < size ∧ p ev

/-- In the words of the specification: some underlying `write` returned a
result satisfying `p` before `size` bytes were transferred, the calls before
it having taken the positive numbers `ks` of bytes. -/
def WriteStopsWith (evs : List WriteEv) (size : Int) (p : WriteEv → Prop) : Prop :=
  ∃ (ks : List Nat) (ev : WriteEv) (rest : List WriteEv),
    evs = ks.map WriteEv.wrote ++ ev :: rest ∧ (∀ k ∈ ks, 0 < k) ∧
      ((ks.sum : Nat) : Int) < size ∧ p ev

/-- A `read` result that the specification classifies as a terminated
connection: the value `0`, or `-1` with `errno` one of `ETIMEDOUT`,
`ECONNRESET`, `EPIPE`. -/
def ReadEv.terminates : ReadEv → Prop
  | .data bs => bs = []
  | .fail e => e = ETIMEDOUT ∨ e = ECONNRESET ∨ e = EPIPE

/-- A `read` result that the specification classifies as fatal: `-1` with any
other `errno`. -/
def ReadEv.fatal : ReadEv → Prop
  | .data _ => False
  | .fail e => ¬ (e = ETIMEDOUT ∨ e = ECONNRESET ∨ e = EPIPE)

/-- A `write` result that the specification classifies as a terminated connection. -/
def WriteEv.terminates : WriteEv → Prop
  | .wrote k => k = 0
  | .fail e => e = ETIMEDOUT ∨ e = ECONNRESET ∨ e = EPIPE

/-- A `write` result that the specification classifies as fatal. -/
def WriteEv.fatal : WriteEv → Prop
  | .wrote _ => False
  | .fail e => ¬ (e = ETIMEDOUT ∨ e = ECONNRESET ∨ e = EPIPE)

/-- The state in which the loop of `readFromFD` is left after the non-empty
`chunks`, for some positive last result `n` (used in the proofs). -/
def afterChunks (chunks : List (List Byte)) (size n : Int) (e : Nat) : ReadState :=
  ⟨([] ++ chunks.flatten) ++ List.replicate (size - chunks.flatten.length).toNat 0,
    (([] : List Byte) ++ chunks.flatten).length, size - chunks.flatten.length, n, e⟩

/-- The state in which the loop of `write2FD` is left after writes that took
the positive numbers `ks` of bytes, for some positive last result `n` (used in
the proofs). -/
def afterWrites (buf : List Byte) (ks : List Nat) (size n : Int) (e : Nat) : WriteState :=
  ⟨0 + ks.sum, size - ((ks.sum : Nat) : Int), n, e, [] ++ (buf.drop 0).take ks.sum⟩

/-- The results of `read` run out while bytes are outstanding: every call
so far returned a non-empty chunk, fewer than `size` bytes in all, and the next
call never returns. -/
def ReadStarves (evs : List ReadEv) (size : Int) : Prop :=
  ∃ chunks : List (List Byte),
    evs = chunks.map ReadEv.data ∧ (∀ c ∈ chunks, c ≠ []) ∧ (chunks.flatten.length : Int) < size

/-- The results of `write` run out while bytes are outstanding. -/
def WriteStarves (evs : List WriteEv) (size : Int) : Prop :=
  ∃ ks : List Nat,
    evs = ks.map WriteEv.wrote ∧ (∀ k ∈ ks, 0 < k) ∧ ((ks.sum : Nat) : Int) < size

/-! ## One connection: lines 255-278 of `main` -/

/-- The value of `ntohl(x)` for the `uint32_t` object at the start of `bs`: its
four bytes read in network order, most significant first. -/
def ntohl (bs : List Byte) : Nat := (bs.take 4).foldl (fun acc b => acc * 256 + b.val) 0

/-- The bytes in memory of `htonl(x)`: `x` in network order, most significant
byte first. -/
def htonl (x : Nat) : List Byte :=
  [⟨x / 16777216 % 256, Nat.mod_lt _ (by decide)⟩, ⟨x / 65536 % 256, Nat.mod_lt _ (by decide)⟩,
    ⟨x / 256 % 256, Nat.mod_lt _ (by decide)⟩, ⟨x % 256, Nat.mod_lt _ (by decide)⟩]

/-- A connection, as the server meets it: the results of the `read` and `write`
calls to come on its descriptor, the bytes that have reached the peer, and
whether the server has called `close` on it. -/
structure Conn where
  rx : List ReadEv
  tx : List WriteEv
  out : List Byte
  closed : Bool
  deriving DecidableEq, Repr

/-- How the body of the accept loop ends for a connection: by one of its
`continue` statements, by reaching its end after `close(connFD)`, by
`exit(status)`, by never returning from a call, or by a memory error. -/
inductive BodyEnd where
  | continued
  | completed
  | exited (status : Nat)
  | blocked
  | crashed
  deriving DecidableEq, Repr

/-- What the body of the accept loop leaves behind. -/
structure ServeResult where
  ending : BodyEnd
  tbl : Table
  conn : Conn
  errno : Nat
  deriving DecidableEq, Repr

/-- Lines 269-278 of `main`: count, answer, close. -/
def answerClient (tbl : Table) (c : Conn) (buf : List Byte) (fileSize : Nat) (errno : Nat) :
    ServeResult :=
  match calcPCC buf fileSize tbl with
  | .error _ => ⟨.crashed, tbl, c, errno⟩
  | .ok (pcc, tbl') =>
    let w := write2FD c.tx (htonl pcc) 4 errno
    let c' := { c with tx := w.rest, out := c.out ++ w.out }
    match w.outcome with
    | .returned v =>
      if v = -1 then ⟨.continued, tbl', c', w.errno⟩
      else ⟨.completed, tbl', { c' with closed := true }, w.errno⟩
    | .exited s => ⟨.exited s, tbl', c', w.errno⟩
    | .blocked => ⟨.blocked, tbl', c', w.errno⟩
    | .crashed => ⟨.crashed, tbl', c', w.errno⟩

/-- Lines 263-278 of `main`, the length prefix `fileSize` decoded: receive
the payload into `char buf[fileSize]`, then count, answer, close. -/
def receivePayload (tbl : Table) (c : Conn) (fileSize : Nat) (errno : Nat) : ServeResult :=
  let r := readFromFD c.rx fileSize errno
  let c' := { c with rx := r.rest }
  match r.outcome with
  | .returned v =>
    if v = -1 then ⟨.continued, tbl, c', r.errno⟩
    else answerClient tbl c' r.buf fileSize r.errno
  | .exited s => ⟨.exited s, tbl, c', r.errno⟩
  | .blocked => ⟨.blocked, tbl, c', r.errno⟩
  | .crashed => ⟨.crashed, tbl, c', r.errno⟩

/-- Lines 255-278 of `main`, the body of the accept loop for the accepted
connection `c`, run on the table `tbl`. -/
def serveClient (tbl : Table) (c : Conn) (errno : Nat) : ServeResult :=
  let r := readFromFD c.rx 4 errno
  let c' := { c with rx := r.rest }
  match r.outcome with
  | .returned v =>
    if v = -1 then ⟨.continued, tbl, c', r.errno⟩
    else receivePayload tbl c' (ntohl r.buf) r.errno
  | .exited s => ⟨.exited s, tbl, c', r.errno⟩
  | .blocked => ⟨.blocked, tbl, c', r.errno⟩
  | .crashed => ⟨.crashed, tbl, c', r.errno⟩

/-! ## The server loop and `handleSIGINT` as a step machine -/

/-- What one call of `accept` does: it returns the descriptor `fd` of a new
connection, or it returns `-1` and sets `errno`. -/
inductive AcceptEv where
  | conn (fd : Nat) (c : Conn)
  | fail (errno : Nat)
  deriving DecidableEq, Repr

/-- The control points of `main` from line 235 on. Inside `readFromFD`,
`calcPCC` and `write2FD` the control point is the head of the loop, so that
every pass through a loop body is a step of its own. A statement that touches
neither a flag, nor the table, nor a descriptor (the set-up of a call, a
conversion, the declaration of `buf`) runs in one step with the test before
it: `handleSIGINT` neither reads nor writes what such a statement uses. -/
inductive PC where
  /-- Line 235: the test of `while (!receivedSIGINT)`. -/
  | loopTest
  /-- Line 237: `handlingClient = 0`. -/
  | setIdle
  /-- Line 240: `connFD = accept(socketFD, NULL, NULL)`. -/
  | doAccept
  /-- Line 242: `handlingClient = 1`. -/
  | setBusy
  /-- Lines 244-253: the test of `connFD`. -/
  | checkConn
  /-- Line 257: in `readFromFD(connFD, &fileSize, sizeof(fileSize))`. -/
  | readSize
  /-- Lines 258-261: the test of `bytesRead`, then `ntohl`. -/
  | gotSize
  /-- Line 265: in `readFromFD(connFD, buf, fileSize)`. -/
  | readBody
  /-- Line 266: the test of `bytesRead`. -/
  | gotBody
  /-- Line 270: in `calcPCC(buf, fileSize)`. -/
  | count
  /-- Line 274: in `write2FD(connFD, &pcc, sizeof(pcc))`. -/
  | send
  /-- Line 275: the test of `bytesWrote`. -/
  | sent
  /-- Line 278: `close(connFD)`. -/
  | closeConn
  /-- Line 283: `printTotalPCC()` after the loop. -/
  | report
  /-- Lines 284-285: `close(socketFD); return EXIT_SUCCESS`. -/
  | finish
  deriving DecidableEq, Repr

/-- Whether the process is alive. -/
inductive Status where
  | running
  | exited (status : Nat)
  | crashed (f : Fault)
  deriving DecidableEq, Repr

/-- The server process: the globals of `pcc_server.c`, the control point and
the locals of `main` and of the function it is in (`word` holds the bytes of
`htonl(pcc)`, `rd` and `wr` the variables of the I/O call in progress), the
environment (results of the `accept` calls to come, the connection behind
`connFD`), and what the process has printed on standard output. The bytes a
`write2FD` call has sent are in `wr.out` while the call runs and are added to
the connection's `out` when it ends (line 275). -/
structure Server where
  handlingClient : Int
  receivedSIGINT : Int
  pccTable : Table
  errno : Nat
  pc : PC
  connFD : Int
  fileSize : Nat
  buf : List Byte
  i : Int
  pcc : Nat
  word : List Byte
  rd : ReadState
  wr : WriteState
  accepts : List AcceptEv
  conn : Option Conn
  stdout : List (Nat × Nat)
  status : Status
  deriving DecidableEq, Repr

/-- The process when `main` reaches line 235: the start-up code of `main` has
set both flags to `0` and zeroed the table, and the socket listens. -/
def initial (accepts : List AcceptEv) : Server :=
  { handlingClient := 0, receivedSIGINT := 0, pccTable := zeroTable, errno := 0,
    pc := .loopTest, connFD := 0, fileSize := 0, buf := [], i := 0, pcc := 0, word := [],
    rd := readInit 0 0, wr := writeInit 0 0, accepts := accepts, conn := none, stdout := [],
    status := .running }

/-- The function `void handleSIGINT(int sigNum)`, run to its end. -/
def handleSIGINT (s : Server) : Server :=
  if s.handlingClient = 0 then
    { s with stdout := s.stdout ++ printTotalPCC s.pccTable, status := .exited EXIT_SUCCESS }
  else { s with receivedSIGINT := 1 }

/-- One pass through the loop of `readFromFD` inside the machine, then `pc := next`
once the loop is left; `none` when `read` does not return. -/
def stepRead (s : Server) (next : PC) : Option Server :=
  if 0 < s.rd.need2Read ∧ 0 < s.rd.numRead then
    match s.conn with
    | none => none
    | some c =>
      match c.rx with
      | [] => none
      | ev :: rest => some { s with rd := readIter s.rd ev, conn := some { c with rx := rest } }
  else some { s with pc := next }

/-- The end of a `readFromFD` call inside the machine (lines 54-66) and the test
`if (bytesRead == -1) continue;` that follows it in `main`; `enter` is what
`main` does next when it goes on. -/
def stepGot (s : Server) (enter : Server → Server) : Server :=
  match readFinish s.rd with
  | .returned v =>
    if v = -1 then { s with errno := s.rd.errno, pc := .loopTest }
    else enter { s with errno := s.rd.errno }
  | .exited st => { s with errno := s.rd.errno, status := .exited st }
  | .blocked => s
  | .crashed => s

/-- One step of `main`; `none` when the process has ended or waits in a call
that does not return. -/
def mainStep (s : Server) : Option Server :=
  match s.status with
  | .exited _ => none
  | .crashed _ => none
  | .running =>
    match s.pc with
    | .loopTest =>
      if s.receivedSIGINT = 0 then some { s with pc := .setIdle }
      else some { s with pc := .report }
    | .setIdle => some { s with handlingClient := 0, pc := .doAccept }
    | .doAccept =>
      match s.accepts with
      | [] => none
      | .conn fd c :: rest =>
        some { s with connFD := fd, conn := some c, accepts := rest, pc := .setBusy }
      | .fail e :: rest =>
        some { s with connFD := -1, errno := e, accepts := rest, pc := .setBusy }
    | .setBusy => some { s with handlingClient := 1, pc := .checkConn }
    | .checkConn =>
      if s.connFD < 0 then
        if s.errno = EINTR then some { s with pc := .loopTest }
        else some { s with status := .exited EXIT_FAILURE }
      else some { s with rd := readInit 4 s.errno, pc := .readSize }
    | .readSize => stepRead s .gotSize
    | .gotSize =>
      some (stepGot s fun s =>
        { s with
          fileSize := ntohl s.rd.buf
          rd := readInit (ntohl s.rd.buf) s.errno
          pc := .readBody })
    | .readBody => stepRead s .gotBody
    | .gotBody =>
      some (stepGot s fun s => { s with buf := s.rd.buf, i := 0, pcc := 0, pc := .count })
    | .count =>
      if toU32 s.i < s.fileSize then
        match calcPCCBody s.buf s.i s.pcc s.pccTable with
        | .error f => some { s with status := .crashed f }
        | .ok (pcc', tbl') =>
          some { s with pcc := pcc', pccTable := tbl', i := wrapInt32 (s.i + 1) }
      else some { s with word := htonl s.pcc, wr := writeInit 4 s.errno, pc := .send }
    | .send =>
      if 0 < s.wr.need2Send ∧ 0 < s.wr.numSent then
        match s.conn with
        | none => none
        | some c =>
          match c.tx with
          | [] => none
          | ev :: rest =>
            some { s with wr := writeIter s.word s.wr ev, conn := some { c with tx := rest } }
      else some { s with pc := .sent }
    | .sent =>
      let s' := { s with
        errno := s.wr.errno
        conn := s.conn.map fun c => { c with out := c.out ++ s.wr.out } }
      match writeFinish s.wr with
      | .returned v =>
        if v = -1 then some { s' with pc := .loopTest } else some { s' with pc := .closeConn }
      | .exited st => some { s' with status := .exited st }
      | .blocked => some s'
      | .crashed => some s'
    | .closeConn =>
      some { s with conn := s.conn.map fun c => { c with closed := true }, pc := .loopTest }
    | .report => some { s with stdout := s.stdout ++ printTotalPCC s.pccTable, pc := .finish }
    | .finish => some { s with status := .exited EXIT_SUCCESS }

/-- What happens next: `main` takes a step, or the signal arrives and
`handleSIGINT` runs. -/
inductive Action where
  | main
  | sigint
  deriving DecidableEq, Repr

/-- The step relation of the process: while it runs, either `main` takes its
next step or, between two steps of `main`, `handleSIGINT` runs to its end. -/
inductive Step : Server → Server → Prop where
  | main {s s' : Server} (h : mainStep s = some s') : Step s s'
  | sigint {s : Server} (h : s.status = .running) : Step s (handleSIGINT s)

/-- The states the process can reach from `s`. -/
inductive Reach (s : Server) : Server → Prop where
  | refl : Reach s s
  | step {t u : Server} (h : Reach s t) (hs : Step t u) : Reach s u

/-- The deterministic reading of a schedule: the process after the actions
`as`, in order; an action that cannot happen leaves the process as it is. -/
def run (s : Server) : List Action → Server
  | [] => s
  | .main :: as =>
    match mainStep s with
    | some s' => run s' as
    | none => run s as
  | .sigint :: as =>
    match s.status with
    | .running => run (handleSIGINT s) as
    | _ => run s as

/-- The control points between `handlingClient = 1` (line 242) and the next
test of the loop: `main` is handling what `accept` returned. -/
def PC.busy : PC → Bool
  | .checkConn | .readSize | .gotSize | .readBody | .gotBody | .count | .send | .sent
  | .closeConn => true
  | _ => false

/-! ## Concrete connections and schedules used in the examples -/

/-- A client that sends the length prefix `2147483649` and then that many
bytes `'A'`, which arrive as `2^31` bytes and one more byte, and that takes
the four bytes of the answer in one `write`. -/
def hugeClient : Conn :=
  ⟨[.data (htonl 2147483649), .data (List.replicate 2147483648 65), .data [65]], [.wrote 4], [],
    false⟩

/-- A client that sends the length prefix `0` and no payload, and takes the answer. -/
def emptyClient : Conn := ⟨[.data [0, 0, 0, 0]], [.wrote 4], [], false⟩

/-- A client that sends the three bytes `"AAA"` behind their length, and takes
the answer. -/
def lateClient : Conn := ⟨[.data [0, 0, 0, 3], .data [65, 65, 65]], [.wrote 4], [], false⟩

/-- A client that announces five bytes, sends two of them and closes. -/
def quitter : Conn :=
  ⟨[.data [0, 0], .data [0, 5], .data [65, 66], .data []], [.wrote 4], [], false⟩

/-- A connection returned by `accept` that `main` has neither answered nor
abandoned: `main` is between the return of `accept` and the test of
`bytesWrote`, with a valid descriptor in `connFD`. -/
def Server.inFlight (s : Server) : Bool :=
  decide (0 ≤ s.connFD) && s.conn.isSome &&
    (decide (s.pc = .setBusy) || (s.pc.busy && decide (s.pc ≠ .closeConn)))

/-- The step machine has run the body of the accept loop as `r` describes it:
from `s`, at line 244 with a connection accepted, it has come to `s'` with the
flags, the output and the pending `accept` results as they were, and either it
is back at the test of the loop with the table, connection and `errno` of `r`,
or it has ended as `r` says. -/
def Simulates (s s' : Server) (r : ServeResult) : Prop :=
  s'.handlingClient = s.handlingClient ∧ s'.receivedSIGINT = s.receivedSIGINT ∧
    s'.stdout = s.stdout ∧ s'.accepts = s.accepts ∧
    (((r.ending = .continued ∨ r.ending = .completed) ∧ s'.pc = .loopTest ∧
        s'.status = .running ∧ s'.pccTable = r.tbl ∧ s'.conn = some r.conn ∧
        s'.errno = r.errno) ∨
      (∃ st, r.ending = .exited st ∧ s'.status = .exited st ∧ s'.pccTable = r.tbl ∧
        s'.conn = some r.conn) ∨
      (r.ending = .crashed ∧ ∃ f, s'.status = .crashed f))


/-! # Theorems -/

/-! ## Lemmas on the counting loop -/

theorem toU32_wrapInt32 (k : Nat) (hk : k < 4294967296) : toU32 (wrapInt32 (k : Int)) = k := by
  unfold toU32 wrapInt32
  omega

theorem wrapInt32_succ (k : Nat) :
    wrapInt32 (wrapInt32 (k : Int) + 1) = wrapInt32 ((k + 1 : Nat) : Int) := by
  unfold wrapInt32
  push_cast
  omega

theorem wrapInt32_small (k : Nat) (hk : k < 2147483648) : wrapInt32 (k : Int) = (k : Int) := by
  unfold wrapInt32
  omega

theorem charVal_printable (b : Byte) : (32 ≤ charVal b ∧ charVal b ≤ 126) ↔ printable b = true := by
  unfold charVal printable
  have := b.isLt
  simp only [Bool.and_eq_true, decide_eq_true_eq]
  split <;> omega

theorem charVal_sub (b : Byte) (h : printable b = true) :
    0 ≤ charVal b - 32 ∧ (charVal b - 32).toNat = b.val - 32 ∧ b.val - 32 < PCCSize := by
  unfold printable at h
  unfold charVal PCCSize
  simp only [Bool.and_eq_true, decide_eq_true_eq] at h
  have h1 : b.val < 128 := by omega
  rw [if_pos h1]
  omega


theorem readBuf_at (pre rest : List Byte) (b : Byte)
    (hlen : pre.length < 2147483648) :
    readBuf (pre ++ b :: rest) (wrapInt32 (pre.length : Int)) = some (charVal b) := by
  rw [wrapInt32_small _ hlen]
  rw [readBuf, if_pos (by omega), Int.toNat_ofNat, List.getElem?_append_right (le_refl _), Nat.sub_self]
  simp only [List.getElem?_cons_zero, Option.map_some']

theorem calcPCCBody_at (pre rest : List Byte) (b : Byte) (pcc : Nat) (tbl : Table)
    (hlen : pre.length < 2147483648) :
    calcPCCBody (pre ++ b :: rest) (wrapInt32 (pre.length : Int)) pcc tbl =
      .ok (countFrom pcc [b], tally tbl [b]) := by
  rw [calcPCCBody, readBuf_at pre rest b hlen]
  clear hlen
  by_cases hp : printable b = true
  · obtain ⟨h0, h1, h2⟩ := charVal_sub b hp
    have hc := (charVal_printable b).mpr hp
    simp only [hc, and_self, if_true, incrSlot, h0, h1, h2, countFrom, tally, tallyByte,
      List.foldl, hp]
  · have hc : ¬ (32 ≤ charVal b ∧ charVal b ≤ 126) := fun h => hp ((charVal_printable b).mp h)
    simp only [hc, if_false, countFrom, tally, tallyByte, List.foldl, hp]
    simp

theorem calcPCCLoop_ok (size : Nat) (hsz : size ≤ 2147483648) :
    ∀ (rest pre : List Byte) (fuel pcc : Nat) (tbl : Table),
      (pre ++ rest).length = size → rest.length ≤ fuel →
      calcPCCLoop (pre ++ rest) size fuel (wrapInt32 (pre.length : Int)) pcc tbl =
        .ok (countFrom pcc rest, tally tbl rest) := by
  intro rest
  induction rest with
  | nil =>
    intro pre fuel pcc tbl hlen _
    simp only [List.append_nil] at hlen
    have hu : toU32 (wrapInt32 (pre.length : Int)) = size := by
      rw [toU32_wrapInt32 _ (by omega)]; exact hlen
    rw [List.append_nil]
    cases fuel <;> rw [calcPCCLoop, hu, if_neg (lt_irrefl _)] <;> rfl
  | cons b rest ih =>
    intro pre fuel pcc tbl hlen hfuel
    simp only [List.length_append, List.length_cons] at hlen hfuel
    have hu : toU32 (wrapInt32 (pre.length : Int)) = pre.length := toU32_wrapInt32 _ (by omega)
    obtain ⟨fuel, rfl⟩ : ∃ f, fuel = f + 1 := ⟨fuel - 1, by omega⟩
    have hlt : pre.length < size := by omega
    have hbody := calcPCCBody_at pre rest b pcc tbl (by omega)
    have hnext := ih (pre ++ [b]) fuel (countFrom pcc [b]) (tally tbl [b])
      (by simp only [List.length_append, List.length_cons, List.length_nil]; omega) (by omega)
    simp only [List.append_assoc, List.singleton_append, List.length_append, List.length_cons,
      List.length_nil, Nat.zero_add] at hnext
    rw [calcPCCLoop, hu, if_pos hlt, hbody]
    simp only []
    rw [wrapInt32_succ, hnext]
    simp only [countFrom, tally, List.foldl_cons, List.foldl_nil]
theorem calcPCCLoop_wraps (size : Nat) (hsz : 2147483648 < size) :
    ∀ (d : Nat) (pre rest : List Byte) (fuel pcc : Nat) (tbl : Table),
      pre.length + d = 2147483648 → (pre ++ rest).length = size → d < fuel →
      calcPCCLoop (pre ++ rest) size fuel (wrapInt32 (pre.length : Int)) pcc tbl =
        .error (.bufIndex (-2147483648)) := by
  intro d
  induction d with
  | zero =>
    intro pre rest fuel pcc tbl hd hlen hfuel
    obtain ⟨fuel, rfl⟩ : ∃ f, fuel = f + 1 := ⟨fuel - 1, by omega⟩
    have hpre : pre.length = 2147483648 := by omega
    have hi : wrapInt32 (pre.length : Int) = -2147483648 := by
      rw [hpre]; decide
    have hu : toU32 (-2147483648) = 2147483648 := by decide
    have hrd : readBuf (pre ++ rest) (-2147483648) = none := by
      rw [readBuf, if_neg (by omega)]
    rw [hi, calcPCCLoop, hu, if_pos hsz, calcPCCBody, hrd]
  | succ d ih =>
    intro pre rest fuel pcc tbl hd hlen hfuel
    obtain ⟨fuel, rfl⟩ : ∃ f, fuel = f + 1 := ⟨fuel - 1, by omega⟩
    rw [List.length_append] at hlen
    cases rest with
    | nil => simp only [List.length_nil] at hlen; omega
    | cons b rest =>
      have hu : toU32 (wrapInt32 (pre.length : Int)) = pre.length :=
        toU32_wrapInt32 _ (by omega)
      have hlt : pre.length < size := by omega
      have hbody := calcPCCBody_at pre rest b pcc tbl (by omega)
      have hnext := ih (pre ++ [b]) rest fuel (countFrom pcc [b]) (tally tbl [b])
        (by simp only [List.length_append, List.length_cons, List.length_nil]; omega)
        (by simp only [List.length_append, List.length_cons, List.length_nil] at hlen ⊢; omega)
        (by omega)
      simp only [List.append_assoc, List.singleton_append, List.length_append, List.length_cons,
        List.length_nil, Nat.zero_add] at hnext
      rw [calcPCCLoop, hu, if_pos hlt, hbody]
      simp only []
      rw [wrapInt32_succ, hnext]

theorem wrapInt32_zero : wrapInt32 ((([] : List Byte).length : Nat) : Int) = 0 := by decide

/-- On a buffer of at most `2^31` bytes `calcPCC` returns, having counted every byte once. -/
theorem calcPCC_ok (buf : List Byte) (tbl : Table) (hsz : buf.length ≤ 2147483648) :
    calcPCC buf buf.length tbl = .ok (countFrom 0 buf, tally tbl buf) := by
  have h := calcPCCLoop_ok buf.length hsz buf [] 4294967296 0 tbl rfl (by omega)
  rw [wrapInt32_zero] at h
  exact h

/-- On a buffer of more than `2^31` bytes the `int` counter of `calcPCC` wraps
to `-2^31` and the loop reads `buf[-2147483648]`. -/
theorem calcPCC_wraps (buf : List Byte) (tbl : Table) (hsz : 2147483648 < buf.length) :
    calcPCC buf buf.length tbl = .error (.bufIndex (-2147483648)) := by
  have h := calcPCCLoop_wraps buf.length hsz 2147483648 [] buf 4294967296 0 tbl rfl rfl
    (by omega)
  rw [wrapInt32_zero] at h
  exact h

theorem countFrom_eq (bs : List Byte) :
    ∀ p : Nat, p + bs.countP printable < 4294967296 →
      countFrom p bs = p + bs.countP printable := by
  induction bs with
  | nil => intro p _; rfl
  | cons b bs ih =>
    intro p hp
    rw [List.countP_cons] at hp ⊢
    by_cases hb : printable b = true
    · rw [if_pos hb] at hp ⊢
      have h1 : wrapU32 (p + 1) = p + 1 := by unfold wrapU32; omega
      have := ih (p + 1) (by omega)
      rw [countFrom, List.foldl_cons, if_pos hb, h1]
      rw [countFrom] at this
      omega
    · rw [if_neg hb] at hp ⊢
      have := ih p (by omega)
      rw [countFrom, List.foldl_cons, if_neg hb]
      rw [countFrom] at this
      omega

theorem countFrom_zero (buf : List Byte) (h : buf.length < 4294967296) :
    countFrom 0 buf = countPrintable buf := by
  have hle : buf.countP printable ≤ buf.length := List.countP_le_length _
  rw [countFrom_eq buf 0 (by omega), countPrintable, Nat.zero_add]

/-! ## Lemmas on `readFromFD` -/

theorem storeAt_append (done c : List Byte) (n : Nat) :
    storeAt (done ++ List.replicate n 0) (done.length : Int) c =
      (done ++ c) ++ List.replicate (n - c.length) 0 := by
  rw [storeAt, Int.toNat_ofNat, List.take_left, List.drop_append, List.drop_replicate]

theorem readLoop_stop (st : ReadState) (evs : List ReadEv)
    (h : ¬ (0 < st.need2Read ∧ 0 < st.numRead)) : readLoop st evs = some (st, evs) := by
  cases evs
  · rw [readLoop, if_neg h]
  · rw [readLoop, if_neg h]

theorem readIter_data (done c : List Byte) (need n : Int) (e : Nat)
    (h : (c.length : Int) ≤ need) :
    readIter ⟨done ++ List.replicate need.toNat 0, done.length, need, n, e⟩ (.data c) =
      ⟨(done ++ c) ++ List.replicate (need - c.length).toNat 0, (done ++ c).length,
        need - c.length, c.length, e⟩ := by
  have hstore := storeAt_append done c need.toNat
  have htn : need.toNat - c.length = (need - (c.length : Int)).toNat := by omega
  simp only [readIter, hstore, htn, List.length_append, Nat.cast_add]

theorem readLoop_chunks (chunks : List (List Byte)) :
    ∀ (done : List Byte) (need n : Int) (e : Nat) (tail : List ReadEv),
      (∀ c ∈ chunks, c ≠ []) → 0 < n → (chunks.flatten.length : Int) ≤ need →
      ∃ n', 0 < n' ∧
        readLoop ⟨done ++ List.replicate need.toNat 0, done.length, need, n, e⟩
            (chunks.map ReadEv.data ++ tail) =
          readLoop ⟨(done ++ chunks.flatten) ++
              List.replicate (need - chunks.flatten.length).toNat 0,
            (done ++ chunks.flatten).length, need - chunks.flatten.length, n', e⟩ tail := by
  induction chunks with
  | nil =>
    intro done need n e tail _ hn _
    exact ⟨n, hn, by simp⟩
  | cons c cs ih =>
    intro done need n e tail hne hn hlen
    have hc : c ≠ [] := hne c (List.mem_cons_self _ _)
    have hcl : 0 < c.length := List.length_pos.mpr hc
    simp only [List.flatten_cons, List.length_append, Nat.cast_add] at hlen
    have hguard : 0 < need ∧ 0 < n := ⟨by omega, hn⟩
    obtain ⟨n', hn', ih'⟩ := ih (done ++ c) (need - c.length) c.length e tail
      (fun x hx => hne x (List.mem_cons_of_mem _ hx)) (by omega) (by omega)
    refine ⟨n', hn', ?_⟩
    rw [List.map_cons, List.cons_append, readLoop]
    simp only [hguard, and_self, if_true]
    rw [readIter_data done c need n e (by omega), ih']
    have e1 : need - (c.length : Int) - (cs.flatten.length : Int) =
        need - (((c ++ cs.flatten).length : Nat) : Int) := by
      rw [List.length_append]; push_cast; omega
    rw [e1, List.flatten_cons]
    simp only [List.append_assoc]


theorem readInit_eq (size : Int) (e : Nat) :
    readInit size e =
      ⟨([] : List Byte) ++ List.replicate size.toNat 0, (([] : List Byte).length : Nat), size, 1, e⟩ := by
  simp [readInit]

theorem readLoop_init_chunks (chunks : List (List Byte)) (size : Int) (e : Nat)
    (tail : List ReadEv) (hne : ∀ c ∈ chunks, c ≠ [])
    (hlen : (chunks.flatten.length : Int) ≤ size) :
    ∃ n, 0 < n ∧ readLoop (readInit size e) (chunks.map ReadEv.data ++ tail) =
      readLoop (afterChunks chunks size n e) tail := by
  obtain ⟨n, hn, h⟩ := readLoop_chunks chunks [] size 1 e tail hne (by omega) hlen
  exact ⟨n, hn, by rw [readInit_eq, h, afterChunks]⟩

theorem readFromFD_complete (chunks : List (List Byte)) (size : Int) (e : Nat)
    (rest : List ReadEv) (hne : ∀ c ∈ chunks, c ≠ [])
    (hlen : (chunks.flatten.length : Int) = size) :
    readFromFD (chunks.map ReadEv.data ++ rest) size e =
      ⟨.returned size, chunks.flatten, e, rest⟩ := by
  obtain ⟨n, hn, h⟩ := readLoop_init_chunks chunks size e rest hne (by omega)
  have hstop : readLoop (afterChunks chunks size n e) rest =
      some (afterChunks chunks size n e, rest) :=
    readLoop_stop _ _ (by simp only [afterChunks]; omega)
  have hfin : readFinish (afterChunks chunks size n e) = .returned size := by
    rw [readFinish, if_neg (by simp only [afterChunks]; omega)]
    simp only [afterChunks, List.nil_append, hlen]
  have hbuf : (afterChunks chunks size n e).buf = chunks.flatten := by
    simp only [afterChunks, List.nil_append, ← hlen, sub_self, Int.toNat_zero,
      List.replicate_zero, List.append_nil]
  have herr : (afterChunks chunks size n e).errno = e := rfl
  rw [readFromFD, if_neg (by omega), h, hstop]
  simp only [hfin, hbuf, herr]

theorem readFromFD_exhausted (chunks : List (List Byte)) (size : Int) (e : Nat)
    (hne : ∀ c ∈ chunks, c ≠ []) (hlen : (chunks.flatten.length : Int) < size) :
    (readFromFD (chunks.map ReadEv.data) size e).outcome = .blocked := by
  obtain ⟨n, hn, h⟩ := readLoop_init_chunks chunks size e [] hne (by omega)
  rw [List.append_nil] at h
  have hnone : readLoop (afterChunks chunks size n e) [] = none := by
    rw [readLoop, if_pos (by simp only [afterChunks]; omega)]
  rw [readFromFD, if_neg (by omega), h, hnone]

theorem readFromFD_stops (chunks : List (List Byte)) (size : Int) (e : Nat) (ev : ReadEv)
    (rest : List ReadEv) (hne : ∀ c ∈ chunks, c ≠ [])
    (hlen : (chunks.flatten.length : Int) < size) :
    (ev.terminates → (readFromFD (chunks.map ReadEv.data ++ ev :: rest) size e).outcome =
        .returned (-1) ∧
      (readFromFD (chunks.map ReadEv.data ++ ev :: rest) size e).rest = rest) ∧
    (ev.fatal → (readFromFD (chunks.map ReadEv.data ++ ev :: rest) size e).outcome =
        .exited EXIT_FAILURE) := by
  obtain ⟨n, hn, h⟩ := readLoop_init_chunks chunks size e (ev :: rest) hne (by omega)
  have hgo : readLoop (afterChunks chunks size n e) (ev :: rest) =
      readLoop (readIter (afterChunks chunks size n e) ev) rest := by
    rw [readLoop, if_pos (by simp only [afterChunks]; omega)]
  have hrf : readFromFD (chunks.map ReadEv.data ++ ev :: rest) size e =
      match readLoop (readIter (afterChunks chunks size n e) ev) rest with
      | none => { outcome := .blocked, buf := [], errno := e, rest := [] }
      | some (st, rest) =>
        { outcome := readFinish st, buf := st.buf, errno := st.errno, rest := rest } := by
    rw [readFromFD, if_neg (by omega), h, hgo]
  rw [hrf]
  cases ev with
  | data bs =>
    refine ⟨fun ht => ?_, fun hf => hf.elim⟩
    simp only [ReadEv.terminates] at ht
    subst ht
    rw [readLoop_stop _ _ (by simp [readIter])]
    simp [readFinish, readIter]
  | fail e' =>
    rw [readLoop_stop _ _ (by simp [readIter])]
    refine ⟨fun ht => ?_, fun hf => ?_⟩
    · simp only [ReadEv.terminates] at ht
      simp [readFinish, readIter, ht]
    · simp only [ReadEv.fatal] at hf
      simp [readFinish, readIter, hf]

theorem read_shapes : ∀ (evs : List ReadEv) (need : Int), 0 < need → validReads evs need = true →
    ReadStopsWith evs need ReadEv.terminates ∨ ReadStopsWith evs need ReadEv.fatal ∨
      ReadStarves evs need ∨
      ∃ (chunks : List (List Byte)) (rest : List ReadEv),
        evs = chunks.map ReadEv.data ++ rest ∧ (∀ c ∈ chunks, c ≠ []) ∧
          (chunks.flatten.length : Int) = need := by
  intro evs
  induction evs with
  | nil =>
    intro need hneed _
    exact Or.inr (Or.inr (Or.inl ⟨[], rfl, by simp, by simpa using hneed⟩))
  | cons ev evs ih =>
    intro need hneed hvalid
    cases ev with
    | fail e =>
      by_cases he : e = ETIMEDOUT ∨ e = ECONNRESET ∨ e = EPIPE
      · exact Or.inl ⟨[], .fail e, evs, rfl, by simp, by simpa using hneed, he⟩
      · exact Or.inr (Or.inl ⟨[], .fail e, evs, rfl, by simp, by simpa using hneed, he⟩)
    | data bs =>
      simp only [validReads, Bool.and_eq_true, Bool.or_eq_true, decide_eq_true_eq,
        List.isEmpty_iff] at hvalid
      obtain ⟨hle, hrest⟩ : (bs.length : Int) ≤ need ∧
          (bs = [] ∨ validReads evs (need - bs.length) = true) := by
        rcases hvalid with h | h
        · omega
        · exact h
      by_cases hbs : bs = []
      · subst hbs
        exact Or.inl ⟨[], .data [], evs, rfl, by simp, by simpa using hneed, rfl⟩
      · by_cases hfull : need ≤ (bs.length : Int)
        · refine Or.inr (Or.inr (Or.inr ⟨[bs], evs, rfl, ?_, ?_⟩))
          · intro c hc
            rw [List.mem_singleton] at hc
            rw [hc]; exact hbs
          · simp only [List.flatten_cons, List.flatten_nil, List.append_nil]
            omega
        · have hv : validReads evs (need - bs.length) = true := by
            rcases hrest with h | h
            · exact absurd h hbs
            · exact h
          have hcons : ∀ (chunks : List (List Byte)), (∀ c ∈ chunks, c ≠ []) →
              ∀ c ∈ bs :: chunks, c ≠ [] := by
            intro chunks h c hc
            rcases List.mem_cons.mp hc with h1 | h1
            · rw [h1]; exact hbs
            · exact h c h1
          have hlen : ∀ (chunks : List (List Byte)),
              (((bs :: chunks).flatten.length : Nat) : Int) =
                (bs.length : Int) + (chunks.flatten.length : Int) := by
            intro chunks
            rw [List.flatten_cons, List.length_append]; push_cast; rfl
          rcases ih (need - bs.length) (by omega) hv with h | h | h | h
          · obtain ⟨chunks, ev, rest, h1, h2, h3, h4⟩ := h
            refine Or.inl ⟨bs :: chunks, ev, rest, ?_, hcons chunks h2, ?_, h4⟩
            · rw [h1]; rfl
            · rw [hlen]; omega
          · obtain ⟨chunks, ev, rest, h1, h2, h3, h4⟩ := h
            refine Or.inr (Or.inl ⟨bs :: chunks, ev, rest, ?_, hcons chunks h2, ?_, h4⟩)
            · rw [h1]; rfl
            · rw [hlen]; omega
          · obtain ⟨chunks, h1, h2, h3⟩ := h
            refine Or.inr (Or.inr (Or.inl ⟨bs :: chunks, ?_, hcons chunks h2, ?_⟩))
            · rw [h1]; rfl
            · rw [hlen]; omega
          · obtain ⟨chunks, rest, h1, h2, h3⟩ := h
            refine Or.inr (Or.inr (Or.inr ⟨bs :: chunks, rest, ?_, hcons chunks h2, ?_⟩))
            · rw [h1]; rfl
            · rw [hlen]; omega

/-- With `size > 0` and results within what was requested, a call of
`readFromFD` ends in exactly one of four ways. -/
theorem readFromFD_cases (evs : List ReadEv) (size : Int) (e : Nat) (hsize : 0 < size)
    (hvalid : validReads evs size = true) :
    (ReadStopsWith evs size ReadEv.terminates ∧
        (readFromFD evs size e).outcome = .returned (-1)) ∨
      (ReadStopsWith evs size ReadEv.fatal ∧
        (readFromFD evs size e).outcome = .exited EXIT_FAILURE) ∨
      (ReadStarves evs size ∧ (readFromFD evs size e).outcome = .blocked) ∨
      ∃ (chunks : List (List Byte)) (rest : List ReadEv),
        evs = chunks.map ReadEv.data ++ rest ∧ (∀ c ∈ chunks, c ≠ []) ∧
          readFromFD evs size e = ⟨.returned size, chunks.flatten, e, rest⟩ := by
  rcases read_shapes evs size hsize hvalid with h | h | h | h
  · refine Or.inl ⟨h, ?_⟩
    obtain ⟨chunks, ev, rest, h1, h2, h3, h4⟩ := h
    rw [h1]
    exact ((readFromFD_stops chunks size e ev rest h2 h3).1 h4).1
  · refine Or.inr (Or.inl ⟨h, ?_⟩)
    obtain ⟨chunks, ev, rest, h1, h2, h3, h4⟩ := h
    rw [h1]
    exact (readFromFD_stops chunks size e ev rest h2 h3).2 h4
  · refine Or.inr (Or.inr (Or.inl ⟨h, ?_⟩))
    obtain ⟨chunks, h1, h2, h3⟩ := h
    rw [h1]
    exact readFromFD_exhausted chunks size e h2 h3
  · obtain ⟨chunks, rest, h1, h2, h3⟩ := h
    refine Or.inr (Or.inr (Or.inr ⟨chunks, rest, h1, h2, ?_⟩))
    rw [h1]
    exact readFromFD_complete chunks size e rest h2 h3

theorem readFromFD_zero (evs : List ReadEv) (e : Nat) :
    readFromFD evs 0 e = ⟨.returned 0, [], e, evs⟩ := by
  have h := readFromFD_complete [] 0 e evs (by simp) (by simp)
  simpa using h

theorem readFromFD_neg (evs : List ReadEv) (size : Int) (e : Nat) (h : size < 0) :
    (readFromFD evs size e).outcome = .crashed := by
  rw [readFromFD, if_pos h]

/-! ## Lemmas on `write2FD` -/

theorem wrapU64_add (a k : Nat) (h : a + k < 18446744073709551616) :
    wrapU64 ((a : Int) + (k : Int)) = a + k := by
  unfold wrapU64
  omega

theorem toS64_small (a : Nat) (h : a < 9223372036854775808) : toS64 a = (a : Int) := by
  rw [toS64, if_pos h]

theorem writeLoop_stop (buf : List Byte) (st : WriteState) (evs : List WriteEv)
    (h : ¬ (0 < st.need2Send ∧ 0 < st.numSent)) : writeLoop buf st evs = some (st, evs) := by
  cases evs
  · rw [writeLoop, if_neg h]
  · rw [writeLoop, if_neg h]

theorem writeIter_wrote (buf : List Byte) (sent k : Nat) (need n : Int) (e : Nat)
    (out : List Byte) (h : sent + k < 18446744073709551616) :
    writeIter buf ⟨sent, need, n, e, out⟩ (.wrote k) =
      ⟨sent + k, need - k, k, e, out ++ (buf.drop sent).take k⟩ := by
  have hw := wrapU64_add sent k h
  simp only [writeIter, hw]

theorem writeLoop_chunks (buf : List Byte) (ks : List Nat) :
    ∀ (sent : Nat) (need n : Int) (e : Nat) (out : List Byte) (tail : List WriteEv),
      (∀ k ∈ ks, 0 < k) → 0 < n → ((ks.sum : Nat) : Int) ≤ need →
      (sent : Int) + need < 18446744073709551616 →
      ∃ n', 0 < n' ∧
        writeLoop buf ⟨sent, need, n, e, out⟩ (ks.map WriteEv.wrote ++ tail) =
          writeLoop buf ⟨sent + ks.sum, need - ks.sum, n', e,
            out ++ (buf.drop sent).take ks.sum⟩ tail := by
  induction ks with
  | nil =>
    intro sent need n e out tail _ hn _ _
    exact ⟨n, hn, by simp⟩
  | cons k ks ih =>
    intro sent need n e out tail hpos hn hlen hbound
    have hk : 0 < k := hpos k (List.mem_cons_self _ _)
    simp only [List.sum_cons, Nat.cast_add] at hlen
    have hguard : 0 < need ∧ 0 < n := ⟨by omega, hn⟩
    obtain ⟨n', hn', ih'⟩ := ih (sent + k) (need - k) k e (out ++ (buf.drop sent).take k) tail
      (fun x hx => hpos x (List.mem_cons_of_mem _ hx)) (by omega) (by omega)
      (by push_cast; omega)
    refine ⟨n', hn', ?_⟩
    rw [List.map_cons, List.cons_append, writeLoop]
    simp only [hguard, and_self, if_true]
    rw [writeIter_wrote buf sent k need n e out (by omega), ih']
    have e1 : need - (k : Int) - ((ks.sum : Nat) : Int) = need - (((k + ks.sum : Nat)) : Int) := by
      push_cast; omega
    have e2 : (buf.drop sent).take k ++ (buf.drop (sent + k)).take ks.sum =
        (buf.drop sent).take (k + ks.sum) := by
      rw [List.take_add, List.drop_drop]
    rw [e1, List.sum_cons, List.append_assoc, e2, Nat.add_assoc]

theorem writeInit_eq (size : Int) (e : Nat) :
    writeInit size e = ⟨0, size, 1, e, []⟩ := rfl

theorem writeLoop_init_chunks (buf : List Byte) (ks : List Nat) (size : Int) (e : Nat)
    (tail : List WriteEv) (hpos : ∀ k ∈ ks, 0 < k) (hlen : ((ks.sum : Nat) : Int) ≤ size)
    (hsize : size < 9223372036854775808) :
    ∃ n, 0 < n ∧ writeLoop buf (writeInit size e) (ks.map WriteEv.wrote ++ tail) =
      writeLoop buf (afterWrites buf ks size n e) tail := by
  obtain ⟨n, hn, h⟩ := writeLoop_chunks buf ks 0 size 1 e [] tail hpos (by omega) hlen
    (by push_cast; omega)
  exact ⟨n, hn, by rw [writeInit_eq, h, afterWrites]⟩

theorem write2FD_complete (buf : List Byte) (ks : List Nat) (size : Int) (e : Nat)
    (rest : List WriteEv) (hpos : ∀ k ∈ ks, 0 < k) (hlen : ((ks.sum : Nat) : Int) = size)
    (hsize : size < 9223372036854775808) :
    write2FD (ks.map WriteEv.wrote ++ rest) buf size e =
      ⟨.returned size, buf.take size.toNat, e, rest⟩ := by
  obtain ⟨n, hn, h⟩ := writeLoop_init_chunks buf ks size e rest hpos (by omega) hsize
  have hstop : writeLoop buf (afterWrites buf ks size n e) rest =
      some (afterWrites buf ks size n e, rest) :=
    writeLoop_stop _ _ _ (by simp only [afterWrites]; omega)
  have hs : toS64 (0 + ks.sum) = size := by
    rw [toS64_small _ (by omega)]; omega
  have hfin : writeFinish (afterWrites buf ks size n e) = .returned size := by
    rw [writeFinish, if_neg (by simp only [afterWrites]; omega)]
    simp only [afterWrites, hs]
  have hout : (afterWrites buf ks size n e).out = buf.take size.toNat := by
    simp only [afterWrites, List.nil_append, List.drop_zero, ← hlen, Int.toNat_ofNat]
  have herr : (afterWrites buf ks size n e).errno = e := rfl
  rw [write2FD, h, hstop]
  simp only [hfin, hout, herr]

theorem write2FD_exhausted (buf : List Byte) (ks : List Nat) (size : Int) (e : Nat)
    (hpos : ∀ k ∈ ks, 0 < k) (hlen : ((ks.sum : Nat) : Int) < size)
    (hsize : size < 9223372036854775808) :
    (write2FD (ks.map WriteEv.wrote) buf size e).outcome = .blocked := by
  obtain ⟨n, hn, h⟩ := writeLoop_init_chunks buf ks size e [] hpos (by omega) hsize
  rw [List.append_nil] at h
  have hnone : writeLoop buf (afterWrites buf ks size n e) [] = none := by
    rw [writeLoop, if_pos (by simp only [afterWrites]; omega)]
  rw [write2FD, h, hnone]

theorem write2FD_stops (buf : List Byte) (ks : List Nat) (size : Int) (e : Nat) (ev : WriteEv)
    (rest : List WriteEv) (hpos : ∀ k ∈ ks, 0 < k) (hlen : ((ks.sum : Nat) : Int) < size)
    (hsize : size < 9223372036854775808) :
    (ev.terminates → (write2FD (ks.map WriteEv.wrote ++ ev :: rest) buf size e).outcome =
        .returned (-1)) ∧
    (ev.fatal → (write2FD (ks.map WriteEv.wrote ++ ev :: rest) buf size e).outcome =
        .exited EXIT_FAILURE) := by
  obtain ⟨n, hn, h⟩ := writeLoop_init_chunks buf ks size e (ev :: rest) hpos (by omega) hsize
  have hgo : writeLoop buf (afterWrites buf ks size n e) (ev :: rest) =
      writeLoop buf (writeIter buf (afterWrites buf ks size n e) ev) rest := by
    rw [writeLoop, if_pos (by simp only [afterWrites]; omega)]
  have hrf : write2FD (ks.map WriteEv.wrote ++ ev :: rest) buf size e =
      match writeLoop buf (writeIter buf (afterWrites buf ks size n e) ev) rest with
      | none => { outcome := .blocked, out := [], errno := e, rest := [] }
      | some (st, rest) =>
        { outcome := writeFinish st, out := st.out, errno := st.errno, rest := rest } := by
    rw [write2FD, h, hgo]
  rw [hrf]
  clear hsize
  cases ev with
  | wrote k =>
    refine ⟨fun ht => ?_, fun hf => hf.elim⟩
    simp only [WriteEv.terminates] at ht
    subst ht
    rw [writeLoop_stop _ _ _ (by simp [writeIter])]
    simp [writeFinish, writeIter]
  | fail e' =>
    rw [writeLoop_stop _ _ _ (by simp [writeIter])]
    refine ⟨fun ht => ?_, fun hf => ?_⟩
    · simp only [WriteEv.terminates] at ht
      simp [writeFinish, writeIter, ht]
    · simp only [WriteEv.fatal] at hf
      simp [writeFinish, writeIter, hf]

theorem write_shapes : ∀ (evs : List WriteEv) (need : Int), 0 < need →
    validWrites evs need = true →
    WriteStopsWith evs need WriteEv.terminates ∨ WriteStopsWith evs need WriteEv.fatal ∨
      WriteStarves evs need ∨
      ∃ (ks : List Nat) (rest : List WriteEv),
        evs = ks.map WriteEv.wrote ++ rest ∧ (∀ k ∈ ks, 0 < k) ∧
          ((ks.sum : Nat) : Int) = need := by
  intro evs
  induction evs with
  | nil =>
    intro need hneed _
    exact Or.inr (Or.inr (Or.inl ⟨[], rfl, by simp, by simpa using hneed⟩))
  | cons ev evs ih =>
    intro need hneed hvalid
    cases ev with
    | fail e =>
      by_cases he : e = ETIMEDOUT ∨ e = ECONNRESET ∨ e = EPIPE
      · exact Or.inl ⟨[], .fail e, evs, rfl, by simp, by simpa using hneed, he⟩
      · exact Or.inr (Or.inl ⟨[], .fail e, evs, rfl, by simp, by simpa using hneed, he⟩)
    | wrote k =>
      simp only [validWrites, Bool.and_eq_true, Bool.or_eq_true, decide_eq_true_eq] at hvalid
      obtain ⟨hle, hrest⟩ : (k : Int) ≤ need ∧ (k = 0 ∨ validWrites evs (need - k) = true) := by
        rcases hvalid with h | h
        · omega
        · exact h
      by_cases hk : k = 0
      · subst hk
        exact Or.inl ⟨[], .wrote 0, evs, rfl, by simp, by simpa using hneed, rfl⟩
      · by_cases hfull : need ≤ (k : Int)
        · refine Or.inr (Or.inr (Or.inr ⟨[k], evs, rfl, ?_, ?_⟩))
          · intro c hc
            rw [List.mem_singleton] at hc
            omega
          · simp only [List.sum_cons, List.sum_nil]
            omega
        · have hv : validWrites evs (need - k) = true := by
            rcases hrest with h | h
            · exact absurd h hk
            · exact h
          have hcons : ∀ (ks : List Nat), (∀ c ∈ ks, 0 < c) → ∀ c ∈ k :: ks, 0 < c := by
            intro ks h c hc
            rcases List.mem_cons.mp hc with h1 | h1
            · omega
            · exact h c h1
          have hlen : ∀ (ks : List Nat),
              ((((k :: ks).sum : Nat)) : Int) = (k : Int) + ((ks.sum : Nat) : Int) := by
            intro ks
            rw [List.sum_cons, Nat.cast_add]
          rcases ih (need - k) (by omega) hv with h | h | h | h
          · obtain ⟨ks, ev, rest, h1, h2, h3, h4⟩ := h
            refine Or.inl ⟨k :: ks, ev, rest, ?_, hcons ks h2, ?_, h4⟩
            · rw [h1]; rfl
            · rw [hlen]; omega
          · obtain ⟨ks, ev, rest, h1, h2, h3, h4⟩ := h
            refine Or.inr (Or.inl ⟨k :: ks, ev, rest, ?_, hcons ks h2, ?_, h4⟩)
            · rw [h1]; rfl
            · rw [hlen]; omega
          · obtain ⟨ks, h1, h2, h3⟩ := h
            refine Or.inr (Or.inr (Or.inl ⟨k :: ks, ?_, hcons ks h2, ?_⟩))
            · rw [h1]; rfl
            · rw [hlen]; omega
          · obtain ⟨ks, rest, h1, h2, h3⟩ := h
            refine Or.inr (Or.inr (Or.inr ⟨k :: ks, rest, ?_, hcons ks h2, ?_⟩))
            · rw [h1]; rfl
            · rw [hlen]; omega

/-- With `0 < size` and results within what was requested, a call of
`write2FD` ends in exactly one of four ways. -/
theorem write2FD_cases (evs : List WriteEv) (buf : List Byte) (size : Int) (e : Nat)
    (hsize : 0 < size) (hmax : size < 9223372036854775808)
    (hvalid : validWrites evs size = true) :
    (WriteStopsWith evs size WriteEv.terminates ∧
        (write2FD evs buf size e).outcome = .returned (-1)) ∨
      (WriteStopsWith evs size WriteEv.fatal ∧
        (write2FD evs buf size e).outcome = .exited EXIT_FAILURE) ∨
      (WriteStarves evs size ∧ (write2FD evs buf size e).outcome = .blocked) ∨
      ∃ (ks : List Nat) (rest : List WriteEv),
        evs = ks.map WriteEv.wrote ++ rest ∧ (∀ k ∈ ks, 0 < k) ∧
          write2FD evs buf size e = ⟨.returned size, buf.take size.toNat, e, rest⟩ := by
  rcases write_shapes evs size hsize hvalid with h | h | h | h
  · refine Or.inl ⟨h, ?_⟩
    obtain ⟨ks, ev, rest, h1, h2, h3, h4⟩ := h
    rw [h1]
    exact (write2FD_stops buf ks size e ev rest h2 h3 hmax).1 h4
  · refine Or.inr (Or.inl ⟨h, ?_⟩)
    obtain ⟨ks, ev, rest, h1, h2, h3, h4⟩ := h
    rw [h1]
    exact (write2FD_stops buf ks size e ev rest h2 h3 hmax).2 h4
  · refine Or.inr (Or.inr (Or.inl ⟨h, ?_⟩))
    obtain ⟨ks, h1, h2, h3⟩ := h
    rw [h1]
    exact write2FD_exhausted buf ks size e h2 h3 hmax
  · obtain ⟨ks, rest, h1, h2, h3⟩ := h
    refine Or.inr (Or.inr (Or.inr ⟨ks, rest, h1, h2, ?_⟩))
    rw [h1]
    exact write2FD_complete buf ks size e rest h2 h3 hmax

/-! ## Lemmas on the histogram -/

theorem tallyByte_length (t : Table) (b : Byte) : (tallyByte t b).length = t.length := by
  rw [tallyByte]
  split
  · rw [List.length_set]
  · rfl

theorem tally_length (bs : List Byte) : ∀ t : Table, (tally t bs).length = t.length := by
  induction bs with
  | nil => intro t; rfl
  | cons b bs ih =>
    intro t
    rw [tally, List.foldl_cons]
    exact (ih (tallyByte t b)).trans (tallyByte_length t b)

theorem tallyByte_getD (t : Table) (b : Byte) (j : Nat) (hj : j < PCCSize)
    (hlen : t.length = PCCSize) :
    (tallyByte t b).getD j 0 =
      if b.val = j + 32 then wrapU32 (t.getD j 0 + 1) else t.getD j 0 := by
  have hjl : j < t.length := by omega
  rw [tallyByte]
  by_cases hp : printable b = true
  · rw [if_pos hp]
    have hp' := hp
    simp only [printable, Bool.and_eq_true, decide_eq_true_eq] at hp'
    by_cases hb : b.val = j + 32
    · have hidx : b.val - 32 = j := by omega
      rw [if_pos hb, hidx]
      simp [List.getD_eq_getElem?_getD, List.getElem?_set, hjl]
    · have hidx : b.val - 32 ≠ j := by omega
      rw [if_neg hb]
      simp [List.getD_eq_getElem?_getD, List.getElem?_set, hidx]
  · rw [if_neg hp]
    have hb : b.val ≠ j + 32 := by
      intro hb
      apply hp
      simp only [printable, Bool.and_eq_true, decide_eq_true_eq]
      unfold PCCSize at hj
      omega
    rw [if_neg hb]

theorem occurrences_cons (v : Nat) (b : Byte) (bs : List Byte) :
    occurrences v (b :: bs) = occurrences v bs + if b.val = v then 1 else 0 := by
  simp [occurrences, List.countP_cons]

theorem tally_getD (j : Nat) (hj : j < PCCSize) (bs : List Byte) :
    ∀ t : Table, t.length = PCCSize → t.getD j 0 < 4294967296 →
      (tally t bs).getD j 0 = wrapU32 (t.getD j 0 + occurrences (j + 32) bs) := by
  induction bs with
  | nil =>
    intro t _ hlt
    have h0 : occurrences (j + 32) [] = 0 := rfl
    rw [h0, wrapU32]
    have : tally t [] = t := rfl
    rw [this]
    omega
  | cons b bs ih =>
    intro t hlen hlt
    have hstep := tallyByte_getD t b j hj hlen
    have hlen' : (tallyByte t b).length = PCCSize := (tallyByte_length t b).trans hlen
    have hlt' : (tallyByte t b).getD j 0 < 4294967296 := by
      rw [hstep]
      split
      · rw [wrapU32]; omega
      · exact hlt
    have hrec := ih (tallyByte t b) hlen' hlt'
    have htl : tally t (b :: bs) = tally (tallyByte t b) bs := rfl
    rw [htl, hrec, hstep, occurrences_cons]
    by_cases hb : b.val = j + 32
    · rw [if_pos hb, if_pos hb]
      simp only [wrapU32]
      omega
    · rw [if_neg hb, if_neg hb]
      rfl

theorem zeroTable_length : zeroTable.length = PCCSize := by
  rw [zeroTable, List.length_replicate]

theorem zeroTable_getD (j : Nat) : zeroTable.getD j 0 = 0 := by
  rw [zeroTable, List.getD_eq_getElem?_getD]
  by_cases h : j < PCCSize
  · simp [h]
  · simp [List.getElem?_eq_none, Nat.le_of_not_lt h]

/-- Starting from the all-zero table, slot `v - 32` holds the number of bytes equal to
`v` seen so far, modulo `2^32`. -/
theorem tally_zeroTable (v : Nat) (h32 : 32 ≤ v) (h126 : v ≤ 126) (bs : List Byte) :
    (tally zeroTable bs).getD (v - 32) 0 = occurrences v bs % 4294967296 := by
  have hj : v - 32 < PCCSize := by unfold PCCSize; omega
  have h := tally_getD (v - 32) hj bs zeroTable zeroTable_length
    (by rw [zeroTable_getD]; omega)
  rw [zeroTable_getD, Nat.zero_add, Nat.sub_add_cancel h32] at h
  rw [h, wrapU32]

/-- On a buffer of at most `2^31` bytes and its length, `calcPCC` returns the
number of printable bytes and has added each of them to its slot. -/
theorem calcPCC_counts (buf : List Byte) (tbl : Table) (hsz : buf.length ≤ 2147483648) :
    calcPCC buf buf.length tbl = .ok (countPrintable buf, tally tbl buf) := by
  rw [calcPCC_ok buf tbl hsz, countFrom_zero buf (by omega)]

theorem tally_append (t : Table) (as bs : List Byte) :
    tally t (as ++ bs) = tally (tally t as) bs := by
  rw [tally, List.foldl_append]; rfl

/-- When `calcPCC` returns on a buffer and its length, the buffer has at most `2^31`
bytes and every byte has been counted once. -/
theorem calcPCC_ok_inv (buf : List Byte) (tbl : Table) (r : Nat × Table)
    (h : calcPCC buf buf.length tbl = .ok r) :
    buf.length ≤ 2147483648 ∧ r = (countPrintable buf, tally tbl buf) := by
  by_cases hsz : buf.length ≤ 2147483648
  · rw [calcPCC_ok buf tbl hsz] at h
    injection h with h
    rw [countFrom_zero buf (by omega)] at h
    exact ⟨hsz, h.symm⟩
  · rw [calcPCC_wraps buf tbl (by omega)] at h
    cases h

theorem calcPCCSeq_ok (bufs : List (List Byte)) :
    ∀ tbl : Table, (∀ b ∈ bufs, b.length ≤ 2147483648) →
      calcPCCSeq tbl bufs = .ok (bufs.map countPrintable, tally tbl bufs.flatten) := by
  induction bufs with
  | nil => intro tbl _; rfl
  | cons buf bufs ih =>
    intro tbl h
    have h1 : buf.length ≤ 2147483648 := h buf (List.mem_cons_self _ _)
    have h2 := ih (tally tbl buf) (fun b hb => h b (List.mem_cons_of_mem _ hb))
    rw [calcPCCSeq, calcPCC_ok buf tbl h1]
    simp only []
    rw [h2, countFrom_zero buf (by omega), List.flatten_cons, tally_append, List.map_cons]

theorem calcPCCSeq_ok_inv (bufs : List (List Byte)) :
    ∀ (tbl : Table) (r : List Nat × Table), calcPCCSeq tbl bufs = .ok r →
      (∀ b ∈ bufs, b.length ≤ 2147483648) ∧
        r = (bufs.map countPrintable, tally tbl bufs.flatten) := by
  induction bufs with
  | nil =>
    intro tbl r h
    rw [calcPCCSeq] at h
    injection h with h
    exact ⟨by simp, h.symm⟩
  | cons buf bufs ih =>
    intro tbl r h
    rw [calcPCCSeq] at h
    cases h1 : calcPCC buf buf.length tbl with
    | error f => rw [h1] at h; cases h
    | ok r1 =>
      obtain ⟨hlen, hr1⟩ := calcPCC_ok_inv buf tbl r1 h1
      rw [h1, hr1] at h
      simp only [] at h
      cases h2 : calcPCCSeq (tally tbl buf) bufs with
      | error f => rw [h2] at h; cases h
      | ok r2 =>
        obtain ⟨hall, hr2⟩ := ih (tally tbl buf) r2 h2
        rw [h2, hr2] at h
        simp only [] at h
        injection h with h
        refine ⟨?_, ?_⟩
        · intro b hb
          rcases List.mem_cons.mp hb with hb | hb
          · rw [hb]; exact hlen
          · exact hall b hb
        · rw [← h, List.map_cons, List.flatten_cons, tally_append]

/-! ## Lemmas on the body of the accept loop -/

theorem htonl_length (x : Nat) : (htonl x).length = 4 := rfl

theorem ntohl_htonl (x : Nat) (h : x < 4294967296) : ntohl (htonl x) = x := by
  have ht : (htonl x).take 4 = htonl x := rfl
  rw [ntohl, ht]
  simp only [htonl, List.foldl_cons, List.foldl_nil]
  omega

theorem ntohl_lt (bs : List Byte) : ntohl bs < 4294967296 := by
  rw [ntohl]
  match bs with
  | [] => simp
  | [a] =>
    have := a.isLt
    simp only [List.take, List.foldl_cons, List.foldl_nil]
    omega
  | [a, b] =>
    have := a.isLt
    have := b.isLt
    simp only [List.take, List.foldl_cons, List.foldl_nil]
    omega
  | [a, b, c] =>
    have := a.isLt
    have := b.isLt
    have := c.isLt
    simp only [List.take, List.foldl_cons, List.foldl_nil]
    omega
  | a :: b :: c :: d :: rest =>
    have := a.isLt
    have := b.isLt
    have := c.isLt
    have := d.isLt
    simp only [List.take, List.foldl_cons, List.foldl_nil]
    omega

/-- Once the length prefix `N` and the `N` payload bytes have arrived, in
whatever non-empty chunks, the body of the loop goes on to count and answer. -/
theorem serveClient_frame (tbl : Table) (N : Nat) (hN : N < 4294967296)
    (cs1 cs2 : List (List Byte)) (h1 : ∀ c ∈ cs1, c ≠ []) (h2 : ∀ c ∈ cs2, c ≠ [])
    (hpre : cs1.flatten = htonl N) (hlen : cs2.flatten.length = N)
    (rx : List ReadEv) (tx : List WriteEv) (out : List Byte) (closed : Bool) (e : Nat) :
    serveClient tbl ⟨cs1.map ReadEv.data ++ (cs2.map ReadEv.data ++ rx), tx, out, closed⟩ e =
      answerClient tbl ⟨rx, tx, out, closed⟩ cs2.flatten N e := by
  have hr1 := readFromFD_complete cs1 4 e (cs2.map ReadEv.data ++ rx) h1
    (by rw [hpre, htonl_length]; rfl)
  have hr2 := readFromFD_complete cs2 (N : Int) e rx h2 (by rw [hlen])
  have hne : ¬ ((N : Int) = -1) := by omega
  rw [serveClient]
  simp only [hr1]
  rw [if_neg (by decide), receivePayload, hpre, ntohl_htonl N hN]
  simp only [hr2]
  rw [if_neg hne]

theorem answerClient_ok (tbl : Table) (payload : List Byte) (N : Nat)
    (hlen : payload.length = N) (hN : N ≤ 2147483648)
    (ks : List Nat) (hpos : ∀ k ∈ ks, 0 < k) (hsum : ks.sum = 4)
    (rx : List ReadEv) (tx : List WriteEv) (out : List Byte) (closed : Bool) (e : Nat) :
    answerClient tbl ⟨rx, ks.map WriteEv.wrote ++ tx, out, closed⟩ payload N e =
      ⟨.completed, tally tbl payload,
        ⟨rx, tx, out ++ htonl (countPrintable payload), true⟩, e⟩ := by
  subst hlen
  have hw := write2FD_complete (htonl (countPrintable payload)) ks 4 e tx hpos
    (by rw [hsum]; rfl) (by decide)
  have htake : List.take (4 : Int).toNat (htonl (countPrintable payload)) =
      htonl (countPrintable payload) := rfl
  rw [htake] at hw
  rw [answerClient, calcPCC_ok payload tbl hN, countFrom_zero payload (by omega)]
  simp only [hw]
  rw [if_neg (by decide)]

theorem calcPCC_wraps_size (buf : List Byte) (N : Nat) (tbl : Table) (hlen : buf.length = N)
    (hN : 2147483648 < N) : calcPCC buf N tbl = .error (.bufIndex (-2147483648)) := by
  subst hlen
  exact calcPCC_wraps buf tbl hN

theorem answerClient_crash (tbl : Table) (c : Conn) (payload : List Byte) (N : Nat)
    (hlen : payload.length = N) (hN : 2147483648 < N) (e : Nat) :
    answerClient tbl c payload N e = ⟨.crashed, tbl, c, e⟩ := by
  rw [answerClient, calcPCC_wraps_size payload N tbl hlen hN]

/-- For a payload of at most `2^31` bytes: when the connection delivers the
big-endian length and then the payload, in whatever non-empty chunks, and takes
the answer, the body of the loop writes the four bytes of the big-endian
number of printable payload bytes, closes the connection, and has added the
payload to the histogram. -/
theorem serveClient_roundtrip (tbl : Table) (payload : List Byte)
    (hN : payload.length ≤ 2147483648)
    (cs1 cs2 : List (List Byte)) (h1 : ∀ c ∈ cs1, c ≠ []) (h2 : ∀ c ∈ cs2, c ≠ [])
    (hpre : cs1.flatten = htonl payload.length) (hpay : cs2.flatten = payload)
    (ks : List Nat) (hpos : ∀ k ∈ ks, 0 < k) (hsum : ks.sum = 4)
    (rx : List ReadEv) (tx : List WriteEv) (e : Nat) :
    serveClient tbl
        ⟨cs1.map ReadEv.data ++ (cs2.map ReadEv.data ++ rx), ks.map WriteEv.wrote ++ tx, [], false⟩
        e =
      ⟨.completed, tally tbl payload, ⟨rx, tx, htonl (countPrintable payload), true⟩, e⟩ := by
  have h := serveClient_frame tbl payload.length (by omega) cs1 cs2 h1 h2 hpre
    (by rw [hpay]) rx (ks.map WriteEv.wrote ++ tx) [] false e
  rw [h, hpay, answerClient_ok tbl payload payload.length rfl hN ks hpos hsum, List.nil_append]

/-! ## Lemmas on the step machine -/

theorem handleSIGINT_busy (s : Server) (h : s.handlingClient ≠ 0) :
    handleSIGINT s = { s with receivedSIGINT := 1 } := by
  rw [handleSIGINT, if_neg h]

theorem handleSIGINT_idle (s : Server) (h : s.handlingClient = 0) :
    handleSIGINT s =
      { s with stdout := s.stdout ++ printTotalPCC s.pccTable, status := .exited EXIT_SUCCESS } := by
  rw [handleSIGINT, if_pos h]

theorem handleSIGINT_pc (s : Server) : (handleSIGINT s).pc = s.pc := by
  rw [handleSIGINT]; split <;> rfl

theorem handleSIGINT_handlingClient (s : Server) :
    (handleSIGINT s).handlingClient = s.handlingClient := by
  rw [handleSIGINT]; split <;> rfl

theorem handleSIGINT_pccTable (s : Server) : (handleSIGINT s).pccTable = s.pccTable := by
  rw [handleSIGINT]; split <;> rfl

theorem mainStep_running (s s' : Server) (h : mainStep s = some s') : s.status = .running := by
  rw [mainStep] at h
  cases hst : s.status with
  | running => rfl
  | exited c => rw [hst] at h; cases h
  | crashed f => rw [hst] at h; cases h

theorem stepRead_facts (s s' : Server) (next : PC) (h : stepRead s next = some s') :
    s'.handlingClient = s.handlingClient ∧ s'.stdout = s.stdout ∧ s'.pccTable = s.pccTable ∧
      s'.receivedSIGINT = s.receivedSIGINT ∧ s'.status = s.status ∧
      (s'.pc = s.pc ∨ s'.pc = next) := by
  rw [stepRead] at h
  split at h
  · cases hc : s.conn with
    | none => rw [hc] at h; cases h
    | some c =>
      rw [hc] at h
      simp only [] at h
      cases hrx : c.rx with
      | nil => rw [hrx] at h; cases h
      | cons ev rest =>
        rw [hrx] at h
        injection h with h
        subst h
        exact ⟨rfl, rfl, rfl, rfl, rfl, Or.inl rfl⟩
  · injection h with h
    subst h
    exact ⟨rfl, rfl, rfl, rfl, rfl, Or.inr rfl⟩

theorem stepGot_facts (s : Server) (enter : Server → Server) (next : PC)
    (henter : ∀ t : Server, (enter t).handlingClient = t.handlingClient ∧
      (enter t).stdout = t.stdout ∧ (enter t).pccTable = t.pccTable ∧
      (enter t).receivedSIGINT = t.receivedSIGINT ∧ (enter t).status = t.status ∧
      (enter t).pc = next) :
    (stepGot s enter).handlingClient = s.handlingClient ∧
      (stepGot s enter).stdout = s.stdout ∧ (stepGot s enter).pccTable = s.pccTable ∧
      (stepGot s enter).receivedSIGINT = s.receivedSIGINT ∧
      ((stepGot s enter).pc = s.pc ∨ (stepGot s enter).pc = .loopTest ∨
        (stepGot s enter).pc = next) := by
  rw [stepGot]
  cases readFinish s.rd with
  | returned v =>
    simp only []
    split
    · exact ⟨rfl, rfl, rfl, rfl, Or.inr (Or.inl rfl)⟩
    · obtain ⟨h1, h2, h3, h4, _, h6⟩ := henter { s with errno := s.rd.errno }
      exact ⟨h1, h2, h3, h4, Or.inr (Or.inr h6)⟩
  | exited st => exact ⟨rfl, rfl, rfl, rfl, Or.inl rfl⟩
  | blocked => exact ⟨rfl, rfl, rfl, rfl, Or.inl rfl⟩
  | crashed => exact ⟨rfl, rfl, rfl, rfl, Or.inl rfl⟩

theorem readFinish_exited (st : ReadState) (c : Nat) (h : readFinish st = .exited c) :
    c = EXIT_FAILURE := by
  rw [readFinish] at h
  split at h
  · split at h
    · cases h
    · injection h with h; exact h.symm
  · cases h

theorem writeFinish_exited (st : WriteState) (c : Nat) (h : writeFinish st = .exited c) :
    c = EXIT_FAILURE := by
  rw [writeFinish] at h
  split at h
  · split at h
    · cases h
    · injection h with h; exact h.symm
  · cases h

theorem stepGot_status (s : Server) (enter : Server → Server)
    (henter : ∀ t : Server, (enter t).status = t.status) (hrun : s.status = .running) :
    (stepGot s enter).status ≠ .exited EXIT_SUCCESS := by
  rw [stepGot]
  cases hf : readFinish s.rd with
  | returned v =>
    simp only []
    split
    · simp only [hrun]; intro h; cases h
    · rw [henter]; simp only [hrun]; intro h; cases h
  | exited st =>
    simp only []
    rw [readFinish_exited _ _ hf]
    intro h
    cases h
  | blocked => simp only [hrun]; intro h; cases h
  | crashed => simp only [hrun]; intro h; cases h

/-- A step of `main` ends the process with `EXIT_SUCCESS` only at the `return`
of line 285. -/
theorem mainStep_exit_success (s s' : Server) (h : mainStep s = some s')
    (hex : s'.status = .exited EXIT_SUCCESS) : s.pc = .finish := by
  have hrun := mainStep_running s s' h
  rw [mainStep, hrun] at h
  simp only [] at h
  cases hpc : s.pc <;> rw [hpc] at h <;> simp only [] at h
  case loopTest =>
    split at h <;> (injection h with h; subst h; simp only [hrun] at hex; cases hex)
  case setIdle => injection h with h; subst h; simp only [hrun] at hex; cases hex
  case doAccept =>
    split at h
    · cases h
    · injection h with h; subst h; simp only [hrun] at hex; cases hex
    · injection h with h; subst h; simp only [hrun] at hex; cases hex
  case setBusy => injection h with h; subst h; simp only [hrun] at hex; cases hex
  case checkConn =>
    split at h
    · split at h
      · injection h with h; subst h; simp only [hrun] at hex; cases hex
      · injection h with h; subst h; cases hex
    · injection h with h; subst h; simp only [hrun] at hex; cases hex
  case readSize =>
    obtain ⟨_, _, _, _, h5, _⟩ := stepRead_facts s s' _ h
    rw [h5, hrun] at hex; cases hex
  case gotSize =>
    injection h with h
    subst h
    exact absurd hex (stepGot_status s _ (fun t => rfl) hrun)
  case readBody =>
    obtain ⟨_, _, _, _, h5, _⟩ := stepRead_facts s s' _ h
    rw [h5, hrun] at hex; cases hex
  case gotBody =>
    injection h with h
    subst h
    exact absurd hex (stepGot_status s _ (fun t => rfl) hrun)
  case count =>
    split at h
    · split at h
      · injection h with h; subst h; cases hex
      · injection h with h; subst h; simp only [hrun] at hex; cases hex
    · injection h with h; subst h; simp only [hrun] at hex; cases hex
  case send =>
    split at h
    · split at h
      · cases h
      · split at h
        · cases h
        · injection h with h; subst h; simp only [hrun] at hex; cases hex
    · injection h with h; subst h; simp only [hrun] at hex; cases hex
  case sent =>
    split at h
    · split at h <;> (injection h with h; subst h; simp only [hrun] at hex; cases hex)
    · rename_i st hw
      injection h with h; subst h
      rw [writeFinish_exited _ _ hw] at hex
      cases hex
    · injection h with h; subst h; simp only [hrun] at hex; cases hex
    · injection h with h; subst h; simp only [hrun] at hex; cases hex
  case closeConn => injection h with h; subst h; simp only [hrun] at hex; cases hex
  case report => injection h with h; subst h; simp only [hrun] at hex; cases hex

/-- How one step of `main` moves the control point and the two flags, and
where it prints or touches the table. -/
theorem mainStep_facts (s s' : Server) (h : mainStep s = some s') :
    s'.receivedSIGINT = s.receivedSIGINT ∧
    ((s'.stdout = s.stdout ∧ s.pc ≠ .report) ∨
      (s.pc = .report ∧ s'.stdout = s.stdout ++ printTotalPCC s.pccTable)) ∧
    (s'.pccTable = s.pccTable ∨ s.pc = .count) ∧
    ((s.pc = .loopTest ∧ s.receivedSIGINT = 0 ∧ s'.pc = .setIdle ∧
        s'.handlingClient = s.handlingClient) ∨
      (s.pc = .loopTest ∧ s.receivedSIGINT ≠ 0 ∧ s'.pc = .report ∧
        s'.handlingClient = s.handlingClient) ∨
      (s.pc = .setIdle ∧ s'.pc = .doAccept ∧ s'.handlingClient = 0) ∨
      (s.pc = .doAccept ∧ s'.pc = .setBusy ∧ s'.handlingClient = s.handlingClient) ∨
      (s.pc = .setBusy ∧ s'.pc = .checkConn ∧ s'.handlingClient = 1) ∨
      (s.pc.busy = true ∧ (s'.pc.busy = true ∨ s'.pc = .loopTest) ∧
        s'.handlingClient = s.handlingClient) ∨
      (s.pc = .report ∧ s'.pc = .finish ∧ s'.handlingClient = s.handlingClient) ∨
      (s.pc = .finish ∧ s'.pc = .finish ∧ s'.handlingClient = s.handlingClient ∧
        s'.status = .exited EXIT_SUCCESS)) := by
  have hrun := mainStep_running s s' h
  rw [mainStep, hrun] at h
  simp only [] at h
  cases hpc : s.pc <;> rw [hpc] at h <;> simp only [] at h
  case loopTest =>
    split at h <;> (injection h with h; subst h; simp [*, PC.busy])
  case setIdle => injection h with h; subst h; simp [*, PC.busy]
  case doAccept =>
    split at h
    · cases h
    · injection h with h; subst h; simp [*, PC.busy]
    · injection h with h; subst h; simp [*, PC.busy]
  case setBusy => injection h with h; subst h; simp [*, PC.busy]
  case checkConn =>
    split at h
    · split at h <;> (injection h with h; subst h; simp [*, PC.busy])
    · injection h with h; subst h; simp [*, PC.busy]
  case readSize =>
    obtain ⟨h1, h2, h3, h4, _, h6⟩ := stepRead_facts s s' _ h
    rw [hpc] at h6
    rcases h6 with h6 | h6 <;> simp [*, PC.busy]
  case gotSize =>
    injection h with h
    have hf := stepGot_facts s (fun s => { s with
          fileSize := ntohl s.rd.buf
          rd := readInit (ntohl s.rd.buf) s.errno
          pc := .readBody }) .readBody (fun t => ⟨rfl, rfl, rfl, rfl, rfl, rfl⟩)
    rw [h, hpc] at hf
    obtain ⟨h1, h2, h3, h4, h6⟩ := hf
    rcases h6 with h6 | h6 | h6 <;> simp [*, PC.busy]
  case readBody =>
    obtain ⟨h1, h2, h3, h4, _, h6⟩ := stepRead_facts s s' _ h
    rw [hpc] at h6
    rcases h6 with h6 | h6 <;> simp [*, PC.busy]
  case gotBody =>
    injection h with h
    have hf := stepGot_facts s (fun s => { s with buf := s.rd.buf, i := 0, pcc := 0, pc := .count })
      .count (fun t => ⟨rfl, rfl, rfl, rfl, rfl, rfl⟩)
    rw [h, hpc] at hf
    obtain ⟨h1, h2, h3, h4, h6⟩ := hf
    rcases h6 with h6 | h6 | h6 <;> simp [*, PC.busy]
  case count =>
    split at h
    · split at h <;> (injection h with h; subst h; simp [*, PC.busy])
    · injection h with h; subst h; simp [*, PC.busy]
  case send =>
    split at h
    · split at h
      · cases h
      · split at h
        · cases h
        · injection h with h; subst h; simp [*, PC.busy]
    · injection h with h; subst h; simp [*, PC.busy]
  case sent =>
    split at h
    · split at h <;> (injection h with h; subst h; simp [*, PC.busy])
    · injection h with h; subst h; simp [*, PC.busy]
    · injection h with h; subst h; simp [*, PC.busy]
    · injection h with h; subst h; simp [*, PC.busy]
  case closeConn => injection h with h; subst h; simp [*, PC.busy]
  case report => injection h with h; subst h; simp [*, PC.busy]
  case finish => injection h with h; subst h; simp [*, PC.busy]

theorem Reach.trans {s t u : Server} (h1 : Reach s t) (h2 : Reach t u) : Reach s u := by
  induction h2 with
  | refl => exact h1
  | step _ hs ih => exact Reach.step ih hs

theorem reach_run (as : List Action) : ∀ s : Server, Reach s (run s as) := by
  induction as with
  | nil => intro s; exact Reach.refl
  | cons a as ih =>
    intro s
    cases a with
    | main =>
      rw [run]
      cases hm : mainStep s with
      | none => exact ih s
      | some s' => exact Reach.trans (Reach.step Reach.refl (Step.main hm)) (ih s')
    | sigint =>
      rw [run]
      cases hst : s.status with
      | running => exact Reach.trans (Reach.step Reach.refl (Step.sigint hst)) (ih _)
      | exited c => exact ih s
      | crashed f => exact ih s

/-- While `main` is between line 242 and the next test of the loop,
`handlingClient` is `1`. -/
theorem busy_handlingClient (accepts : List AcceptEv) (s : Server)
    (h : Reach (initial accepts) s) : s.pc.busy = true → s.handlingClient = 1 := by
  induction h with
  | refl => intro hb; cases hb
  | step _ hs ih =>
    cases hs with
    | main hm =>
      obtain ⟨_, _, _, hpc⟩ := mainStep_facts _ _ hm
      intro hb
      rcases hpc with h | h | h | h | h | h | h | h
      · rw [h.2.2.1] at hb; cases hb
      · rw [h.2.2.1] at hb; cases hb
      · rw [h.2.1] at hb; cases hb
      · rw [h.2.1] at hb; cases hb
      · exact h.2.2
      · rw [h.2.2]; exact ih h.1
      · rw [h.2.1] at hb; cases hb
      · rw [h.2.1] at hb; cases hb
    | sigint hst =>
      intro hb
      rw [handleSIGINT_pc] at hb
      rw [handleSIGINT_handlingClient]
      exact ih hb

/-- Where the process is when it has ended through the shutdown path: not
between line 242 and the next test of the loop. -/
theorem shutdown_not_while_busy (accepts : List AcceptEv) (s : Server)
    (h : Reach (initial accepts) s) : s.status = .exited EXIT_SUCCESS → s.pc.busy = false := by
  induction h with
  | refl => intro hex; cases hex
  | @step t u hr hs ih =>
    cases hs with
    | main hm =>
      intro hex
      have hpc := mainStep_exit_success _ _ hm hex
      obtain ⟨_, _, _, ht⟩ := mainStep_facts _ _ hm
      rcases ht with x | x | x | x | x | x | x | x
      · rw [x.1] at hpc; cases hpc
      · rw [x.1] at hpc; cases hpc
      · rw [x.1] at hpc; cases hpc
      · rw [x.1] at hpc; cases hpc
      · rw [x.1] at hpc; cases hpc
      · rw [hpc] at x; cases x.1
      · rw [x.1] at hpc; cases hpc
      · rw [x.2.1]; rfl
    | sigint hst =>
      intro _
      rw [handleSIGINT_pc]
      by_contra hb
      have hb' : t.pc.busy = true := by
        cases hbb : t.pc.busy
        · exact absurd hbb hb
        · rfl
      have h1 := busy_handlingClient accepts t hr hb'
      have hr2 : handleSIGINT t = { t with receivedSIGINT := 1 } :=
        handleSIGINT_busy t (by omega)
      have : (handleSIGINT t).status = .running := by rw [hr2]; exact hst
      rename_i hex
      rw [this] at hex
      cases hex

/-- Once `receivedSIGINT` is set while `main` is between line 242 and the next
test of the loop (or at that test), `main` never again reaches line 237 or the
`accept` of line 240. -/
theorem no_accept_once_flag_seen (s t : Server) (h : Reach s t)
    (hflag : s.receivedSIGINT ≠ 0)
    (hpc : s.pc.busy = true ∨ s.pc = .loopTest ∨ s.pc = .report ∨ s.pc = .finish) :
    t.receivedSIGINT ≠ 0 ∧
      (t.pc.busy = true ∨ t.pc = .loopTest ∨ t.pc = .report ∨ t.pc = .finish) := by
  induction h with
  | refl => exact ⟨hflag, hpc⟩
  | @step t u _ hs ih =>
    obtain ⟨ihf, ihp⟩ := ih
    cases hs with
    | main hm =>
      obtain ⟨hf, _, _, ht⟩ := mainStep_facts _ _ hm
      refine ⟨by rw [hf]; exact ihf, ?_⟩
      rcases ht with x | x | x | x | x | x | x | x
      · exact absurd x.2.1 ihf
      · exact Or.inr (Or.inr (Or.inl x.2.2.1))
      · rcases ihp with p | p | p | p
        · rw [x.1] at p; cases p
        · rw [x.1] at p; cases p
        · rw [x.1] at p; cases p
        · rw [x.1] at p; cases p
      · rcases ihp with p | p | p | p
        · rw [x.1] at p; cases p
        · rw [x.1] at p; cases p
        · rw [x.1] at p; cases p
        · rw [x.1] at p; cases p
      · rcases ihp with p | p | p | p
        · rw [x.1] at p; cases p
        · rw [x.1] at p; cases p
        · rw [x.1] at p; cases p
        · rw [x.1] at p; cases p
      · rcases x.2.1 with b | b
        · exact Or.inl b
        · exact Or.inr (Or.inl b)
      · exact Or.inr (Or.inr (Or.inr x.2.1))
      · exact Or.inr (Or.inr (Or.inr x.2.1))
    | sigint hst =>
      refine ⟨?_, by rw [handleSIGINT_pc]; exact ihp⟩
      rw [handleSIGINT]
      split
      · exact ihf
      · simp

/-! ## The step machine runs the body of the loop as `serveClient` describes it -/

theorem run_append (as bs : List Action) : ∀ s : Server, run s (as ++ bs) = run (run s as) bs := by
  induction as with
  | nil => intro s; rfl
  | cons a as ih =>
    intro s
    cases a with
    | main =>
      rw [List.cons_append, run, run]
      cases mainStep s with
      | none => exact ih s
      | some s' => exact ih s'
    | sigint =>
      rw [List.cons_append, run, run]
      cases s.status with
      | running => exact ih _
      | exited c => exact ih s
      | crashed f => exact ih s

theorem run_main_of_step (s s' t : Server) (n : Nat) (h : mainStep s = some s')
    (hn : run s' (List.replicate n .main) = t) : run s (List.replicate (n + 1) .main) = t := by
  rw [List.replicate_succ, run, h]
  exact hn

theorem run_main_trans (s t u : Server) (n m : Nat) (h1 : run s (List.replicate n .main) = t)
    (h2 : run t (List.replicate m .main) = u) : run s (List.replicate (n + m) .main) = u := by
  rw [List.replicate_add, run_append, h1, h2]

theorem run_readLoop (next : PC) :
    ∀ (evs : List ReadEv) (s : Server) (c : Conn) (st : ReadState) (rest : List ReadEv),
      s.status = .running → (s.pc = .readSize ∧ next = .gotSize ∨ s.pc = .readBody ∧ next = .gotBody) →
      s.conn = some c → c.rx = evs → readLoop s.rd evs = some (st, rest) →
      ∃ n, run s (List.replicate n .main) =
        { s with rd := st, conn := some { c with rx := rest }, pc := next } := by
  have hstep : ∀ s : Server, s.status = .running →
      (s.pc = .readSize ∧ next = .gotSize ∨ s.pc = .readBody ∧ next = .gotBody) →
      mainStep s = stepRead s next := by
    intro s hrun hpc
    rw [mainStep]
    rcases hpc with ⟨h1, h2⟩ | ⟨h1, h2⟩
    · simp only [hrun, h1, h2]
    · simp only [hrun, h1, h2]
  have hleave : ∀ (s : Server) (c : Conn), s.status = .running →
      (s.pc = .readSize ∧ next = .gotSize ∨ s.pc = .readBody ∧ next = .gotBody) →
      s.conn = some c → ¬ (0 < s.rd.need2Read ∧ 0 < s.rd.numRead) →
      run s (List.replicate 1 .main) =
        { s with rd := s.rd, conn := some { c with rx := c.rx }, pc := next } := by
    intro s c hrun hpc hconn hg
    have h1 : mainStep s = some { s with pc := next } := by
      rw [hstep s hrun hpc, stepRead, if_neg hg]
    rw [run_main_of_step s _ _ 0 h1 rfl]
    cases s
    simp only at hconn
    subst hconn
    rfl
  intro evs
  induction evs with
  | nil =>
    intro s c st rest hrun hpc hconn hrx hloop
    rw [readLoop] at hloop
    split at hloop
    · cases hloop
    · rename_i hg
      injection hloop with hloop
      injection hloop with h1 h2
      subst h1 h2
      rw [← hrx]
      exact ⟨1, hleave s c hrun hpc hconn hg⟩
  | cons ev evs ih =>
    intro s c st rest hrun hpc hconn hrx hloop
    rw [readLoop] at hloop
    split at hloop
    · rename_i hg
      have h1 : mainStep s =
          some { s with rd := readIter s.rd ev, conn := some { c with rx := evs } } := by
        rw [hstep s hrun hpc, stepRead, if_pos hg, hconn]
        simp only [hrx]
      obtain ⟨n, hn⟩ := ih { s with rd := readIter s.rd ev, conn := some { c with rx := evs } }
        { c with rx := evs } st rest hrun hpc rfl rfl hloop
      exact ⟨n + 1, run_main_of_step s _ _ n h1 hn⟩
    · rename_i hg
      injection hloop with hloop
      injection hloop with h1 h2
      subst h1 h2
      rw [← hrx]
      exact ⟨1, hleave s c hrun hpc hconn hg⟩

theorem run_writeLoop :
    ∀ (evs : List WriteEv) (s : Server) (c : Conn) (st : WriteState) (rest : List WriteEv),
      s.status = .running → s.pc = .send → s.conn = some c → c.tx = evs →
      writeLoop s.word s.wr evs = some (st, rest) →
      ∃ n, run s (List.replicate n .main) =
        { s with wr := st, conn := some { c with tx := rest }, pc := .sent } := by
  have hleave : ∀ (s : Server) (c : Conn), s.status = .running → s.pc = .send →
      s.conn = some c → ¬ (0 < s.wr.need2Send ∧ 0 < s.wr.numSent) →
      run s (List.replicate 1 .main) =
        { s with wr := s.wr, conn := some { c with tx := c.tx }, pc := .sent } := by
    intro s c hrun hpc hconn hg
    have h1 : mainStep s = some { s with pc := .sent } := by
      rw [mainStep]
      simp only [hrun, hpc]
      rw [if_neg hg]
    rw [run_main_of_step s _ _ 0 h1 rfl]
    cases s
    simp only at hconn
    subst hconn
    rfl
  intro evs
  induction evs with
  | nil =>
    intro s c st rest hrun hpc hconn htx hloop
    rw [writeLoop] at hloop
    split at hloop
    · cases hloop
    · rename_i hg
      injection hloop with hloop
      injection hloop with h1 h2
      subst h1 h2
      rw [← htx]
      exact ⟨1, hleave s c hrun hpc hconn hg⟩
  | cons ev evs ih =>
    intro s c st rest hrun hpc hconn htx hloop
    rw [writeLoop] at hloop
    split at hloop
    · rename_i hg
      have h1 : mainStep s =
          some { s with wr := writeIter s.word s.wr ev, conn := some { c with tx := evs } } := by
        rw [mainStep]
        simp only [hrun, hpc]
        rw [if_pos hg, hconn]
        simp only [htx]
      obtain ⟨n, hn⟩ := ih
        { s with wr := writeIter s.word s.wr ev, conn := some { c with tx := evs } }
        { c with tx := evs } st rest hrun hpc rfl rfl hloop
      exact ⟨n + 1, run_main_of_step s _ _ n h1 hn⟩
    · rename_i hg
      injection hloop with hloop
      injection hloop with h1 h2
      subst h1 h2
      rw [← htx]
      exact ⟨1, hleave s c hrun hpc hconn hg⟩

theorem run_calcPCCLoop :
    ∀ (fuel : Nat) (s : Server), s.status = .running → s.pc = .count →
      (∀ (pcc : Nat) (tbl : Table),
        calcPCCLoop s.buf s.fileSize fuel s.i s.pcc s.pccTable = .ok (pcc, tbl) →
        ∃ (n : Nat) (i : Int), run s (List.replicate n .main) =
          { s with i := i, pcc := pcc, pccTable := tbl, word := htonl pcc,
                   wr := writeInit 4 s.errno, pc := .send }) ∧
      (∀ f : Fault, f ≠ .fuel →
        calcPCCLoop s.buf s.fileSize fuel s.i s.pcc s.pccTable = .error f →
        ∃ n : Nat, (run s (List.replicate n .main)).status = .crashed f ∧
          (run s (List.replicate n .main)).handlingClient = s.handlingClient ∧
          (run s (List.replicate n .main)).receivedSIGINT = s.receivedSIGINT ∧
          (run s (List.replicate n .main)).stdout = s.stdout ∧
          (run s (List.replicate n .main)).accepts = s.accepts) := by
  have hleave : ∀ s : Server, s.status = .running → s.pc = .count →
      ¬ toU32 s.i < s.fileSize →
      run s (List.replicate 1 .main) =
        { s with i := s.i, pcc := s.pcc, pccTable := s.pccTable, word := htonl s.pcc,
                 wr := writeInit 4 s.errno, pc := .send } := by
    intro s hrun hpc hg
    have h1 : mainStep s =
        some { s with word := htonl s.pcc, wr := writeInit 4 s.errno, pc := .send } := by
      rw [mainStep]
      simp only [hrun, hpc]
      rw [if_neg hg]
    exact run_main_of_step s _ _ 0 h1 rfl
  intro fuel
  induction fuel with
  | zero =>
    intro s hrun hpc
    refine ⟨fun pcc tbl h => ?_, fun f hf h => ?_⟩
    · rw [calcPCCLoop] at h
      split at h
      · cases h
      · rename_i hg
        injection h with h
        injection h with h1 h2
        subst h1 h2
        exact ⟨1, s.i, hleave s hrun hpc hg⟩
    · rw [calcPCCLoop] at h
      split at h
      · injection h with h
        exact absurd h.symm hf
      · cases h
  | succ fuel ih =>
    intro s hrun hpc
    refine ⟨fun pcc tbl h => ?_, fun f hf h => ?_⟩
    · rw [calcPCCLoop] at h
      split at h
      · rename_i hg
        cases hb : calcPCCBody s.buf s.i s.pcc s.pccTable with
        | error f => rw [hb] at h; cases h
        | ok r =>
          obtain ⟨pcc1, tbl1⟩ := r
          rw [hb] at h
          simp only [] at h
          have h1 : mainStep s =
              some { s with pcc := pcc1, pccTable := tbl1, i := wrapInt32 (s.i + 1) } := by
            rw [mainStep]
            simp only [hrun, hpc]
            rw [if_pos hg, hb]
          obtain ⟨n, i, hn⟩ :=
            (ih { s with pcc := pcc1, pccTable := tbl1, i := wrapInt32 (s.i + 1) } hrun hpc).1
              pcc tbl h
          exact ⟨n + 1, i, run_main_of_step s _ _ n h1 hn⟩
      · rename_i hg
        injection h with h
        injection h with h1 h2
        subst h1 h2
        exact ⟨1, s.i, hleave s hrun hpc hg⟩
    · rw [calcPCCLoop] at h
      split at h
      · rename_i hg
        cases hb : calcPCCBody s.buf s.i s.pcc s.pccTable with
        | error f1 =>
          rw [hb] at h
          simp only [] at h
          injection h with h
          subst h
          have h1 : mainStep s = some { s with status := .crashed f1 } := by
            rw [mainStep]
            simp only [hrun, hpc]
            rw [if_pos hg, hb]
          have hr := run_main_of_step s _ _ 0 h1 rfl
          exact ⟨0 + 1, by rw [hr]; exact ⟨rfl, rfl, rfl, rfl, rfl⟩⟩
        | ok r =>
          obtain ⟨pcc1, tbl1⟩ := r
          rw [hb] at h
          simp only [] at h
          have h1 : mainStep s =
              some { s with pcc := pcc1, pccTable := tbl1, i := wrapInt32 (s.i + 1) } := by
            rw [mainStep]
            simp only [hrun, hpc]
            rw [if_pos hg, hb]
          obtain ⟨n, hn⟩ :=
            (ih { s with pcc := pcc1, pccTable := tbl1, i := wrapInt32 (s.i + 1) } hrun hpc).2
              f hf h
          have hr := run_main_of_step s _ _ n h1 rfl
          exact ⟨n + 1, by rw [hr]; exact hn⟩
      · cases h

theorem calcPCCBody_not_fuel (buf : List Byte) (i : Int) (pcc : Nat) (tbl : Table) :
    calcPCCBody buf i pcc tbl ≠ .error .fuel := by
  rw [calcPCCBody]
  cases readBuf buf i with
  | none => simp
  | some c =>
    simp only []
    split
    · cases incrSlot tbl (c - 32) <;> simp
    · simp

/-- The iteration budget of `calcPCCLoop` never runs out: the loop is left after
`size` passes at the latest. -/
theorem calcPCCLoop_fuel_suffices (buf : List Byte) (size : Nat) (hsize : size < 4294967296) :
    ∀ (fuel k pcc : Nat) (tbl : Table), k ≤ size → size - k ≤ fuel →
      calcPCCLoop buf size fuel (wrapInt32 (k : Int)) pcc tbl ≠ .error .fuel := by
  intro fuel
  induction fuel with
  | zero =>
    intro k pcc tbl hk hf
    have hu : toU32 (wrapInt32 (k : Int)) = k := toU32_wrapInt32 k (by omega)
    rw [calcPCCLoop, hu, if_neg (by omega)]
    simp
  | succ fuel ih =>
    intro k pcc tbl hk hf
    have hu : toU32 (wrapInt32 (k : Int)) = k := toU32_wrapInt32 k (by omega)
    rw [calcPCCLoop, hu]
    split
    · rename_i hg
      cases hb : calcPCCBody buf (wrapInt32 (k : Int)) pcc tbl with
      | error f =>
        simp only []
        intro h
        injection h with h
        exact calcPCCBody_not_fuel buf _ pcc tbl (by rw [hb, h])
      | ok r =>
        simp only []
        rw [wrapInt32_succ]
        exact ih (k + 1) _ _ (by omega) (by omega)
    · simp

theorem calcPCC_not_fuel (buf : List Byte) (size : Nat) (tbl : Table)
    (hsize : size < 4294967296) : calcPCC buf size tbl ≠ .error .fuel := by
  have h := calcPCCLoop_fuel_suffices buf size hsize 4294967296 0 0 tbl (by omega) (by omega)
  have h0 : wrapInt32 ((0 : Nat) : Int) = 0 := by decide
  rw [h0] at h
  exact h

theorem writeFinish_cases (st : WriteState) :
    (∃ v, writeFinish st = .returned v) ∨ writeFinish st = .exited EXIT_FAILURE := by
  rw [writeFinish]
  split
  · split
    · exact Or.inl ⟨_, rfl⟩
    · exact Or.inr rfl
  · exact Or.inl ⟨_, rfl⟩

theorem readFinish_cases (st : ReadState) :
    (∃ v, readFinish st = .returned v) ∨ readFinish st = .exited EXIT_FAILURE := by
  rw [readFinish]
  split
  · split
    · exact Or.inl ⟨_, rfl⟩
    · exact Or.inr rfl
  · exact Or.inl ⟨_, rfl⟩

/-- From line 270 on, the machine does what `answerClient` says. -/
theorem run_answerClient (s : Server) (c : Conn) (hrun : s.status = .running)
    (hpc : s.pc = .count) (hi : s.i = 0) (hp : s.pcc = 0) (hconn : s.conn = some c)
    (hfs : s.fileSize < 4294967296)
    (hnb : (answerClient s.pccTable c s.buf s.fileSize s.errno).ending ≠ .blocked) :
    ∃ n, Simulates s (run s (List.replicate n .main))
      (answerClient s.pccTable c s.buf s.fileSize s.errno) := by
  have hcalc : calcPCC s.buf s.fileSize s.pccTable =
      calcPCCLoop s.buf s.fileSize 4294967296 s.i s.pcc s.pccTable := by
    rw [calcPCC, hi, hp]
  obtain ⟨hok, herr⟩ := run_calcPCCLoop 4294967296 s hrun hpc
  cases hc : calcPCC s.buf s.fileSize s.pccTable with
  | error f =>
    have hf : f ≠ .fuel := fun h => calcPCC_not_fuel _ _ _ hfs (by rw [hc, h])
    obtain ⟨n, h1, h2, h3, h4, h5⟩ := herr f hf (by rw [← hcalc, hc])
    refine ⟨n, h2, h3, h4, h5, Or.inr (Or.inr ⟨?_, f, h1⟩)⟩
    rw [answerClient, hc]
  | ok r =>
    obtain ⟨pcc, tbl⟩ := r
    obtain ⟨n1, i1, hn1⟩ := hok pcc tbl (by rw [← hcalc, hc])
    have hans : answerClient s.pccTable c s.buf s.fileSize s.errno =
        match (write2FD c.tx (htonl pcc) 4 s.errno).outcome with
        | .returned v =>
          if v = -1 then
            ⟨.continued, tbl,
              { c with tx := (write2FD c.tx (htonl pcc) 4 s.errno).rest,
                       out := c.out ++ (write2FD c.tx (htonl pcc) 4 s.errno).out },
              (write2FD c.tx (htonl pcc) 4 s.errno).errno⟩
          else
            ⟨.completed, tbl,
              { c with tx := (write2FD c.tx (htonl pcc) 4 s.errno).rest,
                       out := c.out ++ (write2FD c.tx (htonl pcc) 4 s.errno).out,
                       closed := true },
              (write2FD c.tx (htonl pcc) 4 s.errno).errno⟩
        | .exited st =>
          ⟨.exited st, tbl,
            { c with tx := (write2FD c.tx (htonl pcc) 4 s.errno).rest,
                     out := c.out ++ (write2FD c.tx (htonl pcc) 4 s.errno).out },
            (write2FD c.tx (htonl pcc) 4 s.errno).errno⟩
        | .blocked =>
          ⟨.blocked, tbl,
            { c with tx := (write2FD c.tx (htonl pcc) 4 s.errno).rest,
                     out := c.out ++ (write2FD c.tx (htonl pcc) 4 s.errno).out },
            (write2FD c.tx (htonl pcc) 4 s.errno).errno⟩
        | .crashed =>
          ⟨.crashed, tbl,
            { c with tx := (write2FD c.tx (htonl pcc) 4 s.errno).rest,
                     out := c.out ++ (write2FD c.tx (htonl pcc) 4 s.errno).out },
            (write2FD c.tx (htonl pcc) 4 s.errno).errno⟩ := by
      rw [answerClient, hc]
    rw [hans] at hnb ⊢
    cases hw : writeLoop (htonl pcc) (writeInit 4 s.errno) c.tx with
    | none =>
      exfalso
      apply hnb
      have : write2FD c.tx (htonl pcc) 4 s.errno =
          { outcome := .blocked, out := [], errno := s.errno, rest := [] } := by
        rw [write2FD, hw]
      rw [this]
    | some p =>
      obtain ⟨st, rest⟩ := p
      have hwr : write2FD c.tx (htonl pcc) 4 s.errno =
          { outcome := writeFinish st, out := st.out, errno := st.errno, rest := rest } := by
        rw [write2FD, hw]
      rw [hwr] at hnb ⊢
      obtain ⟨n2, hn2⟩ := run_writeLoop c.tx
        { s with i := i1, pcc := pcc, pccTable := tbl, word := htonl pcc,
                 wr := writeInit 4 s.errno, pc := .send } c st rest hrun rfl hconn rfl hw
      have h12 := run_main_trans s _ _ n1 n2 hn1 hn2
      simp only [] at h12
      rcases writeFinish_cases st with ⟨v, hv⟩ | hv
      · by_cases hv1 : v = -1
        · have hstep : mainStep
              { s with i := i1, pcc := pcc, pccTable := tbl, word := htonl pcc, wr := st,
                       conn := some { c with tx := rest }, pc := .sent } =
              some { s with i := i1, pcc := pcc, pccTable := tbl, word := htonl pcc, wr := st,
                            errno := st.errno,
                            conn := some { c with tx := rest, out := c.out ++ st.out },
                            pc := .loopTest } := by
            rw [mainStep]
            simp only [hrun, hv, hv1, if_true, Option.map_some']
          have hfin := run_main_trans s _ _ (n1 + n2) 1 h12 (run_main_of_step _ _ _ 0 hstep rfl)
          refine ⟨n1 + n2 + 1, ?_⟩
          rw [hfin]
          simp only [hv, hv1, if_true]
          exact ⟨rfl, rfl, rfl, rfl, Or.inl ⟨Or.inl rfl, rfl, hrun, rfl, rfl, rfl⟩⟩
        · have hstep : mainStep
              { s with i := i1, pcc := pcc, pccTable := tbl, word := htonl pcc, wr := st,
                       conn := some { c with tx := rest }, pc := .sent } =
              some { s with i := i1, pcc := pcc, pccTable := tbl, word := htonl pcc, wr := st,
                            errno := st.errno,
                            conn := some { c with tx := rest, out := c.out ++ st.out },
                            pc := .closeConn } := by
            rw [mainStep]
            simp only [hrun, hv, hv1, if_false, Option.map_some']
          have hstep2 : mainStep
              { s with i := i1, pcc := pcc, pccTable := tbl, word := htonl pcc, wr := st,
                       errno := st.errno,
                       conn := some { c with tx := rest, out := c.out ++ st.out },
                       pc := .closeConn } =
              some { s with i := i1, pcc := pcc, pccTable := tbl, word := htonl pcc, wr := st,
                            errno := st.errno,
                            conn := some { c with tx := rest, out := c.out ++ st.out,
                                                  closed := true },
                            pc := .loopTest } := by
            rw [mainStep]
            simp only [hrun, Option.map_some']
          have hfin := run_main_trans s _ _ (n1 + n2) 2 h12
            (run_main_of_step _ _ _ 1 hstep (run_main_of_step _ _ _ 0 hstep2 rfl))
          refine ⟨n1 + n2 + 2, ?_⟩
          rw [hfin]
          simp only [hv, hv1, if_false]
          exact ⟨rfl, rfl, rfl, rfl, Or.inl ⟨Or.inr rfl, rfl, hrun, rfl, rfl, rfl⟩⟩
      · have hstep : mainStep
            { s with i := i1, pcc := pcc, pccTable := tbl, word := htonl pcc, wr := st,
                     conn := some { c with tx := rest }, pc := .sent } =
            some { s with i := i1, pcc := pcc, pccTable := tbl, word := htonl pcc, wr := st,
                          errno := st.errno,
                          conn := some { c with tx := rest, out := c.out ++ st.out },
                          pc := .sent, status := .exited EXIT_FAILURE } := by
          rw [mainStep]
          simp only [hrun, hv, Option.map_some']
        have hfin := run_main_trans s _ _ (n1 + n2) 1 h12 (run_main_of_step _ _ _ 0 hstep rfl)
        refine ⟨n1 + n2 + 1, ?_⟩
        rw [hfin]
        simp only [hv]
        exact ⟨rfl, rfl, rfl, rfl, Or.inr (Or.inl ⟨EXIT_FAILURE, rfl, rfl, rfl, rfl⟩)⟩

theorem Simulates.of_eq {s t s' : Server} {r : ServeResult} (h : Simulates t s' r)
    (h1 : t.handlingClient = s.handlingClient) (h2 : t.receivedSIGINT = s.receivedSIGINT)
    (h3 : t.stdout = s.stdout) (h4 : t.accepts = s.accepts) : Simulates s s' r := by
  obtain ⟨a1, a2, a3, a4, a5⟩ := h
  exact ⟨a1.trans h1, a2.trans h2, a3.trans h3, a4.trans h4, a5⟩

theorem readFromFD_nonneg (evs : List ReadEv) (N : Nat) (e : Nat) :
    readFromFD evs (N : Int) e =
      match readLoop (readInit (N : Int) e) evs with
      | none => { outcome := .blocked, buf := [], errno := e, rest := [] }
      | some (st, rest) =>
        { outcome := readFinish st, buf := st.buf, errno := st.errno, rest := rest } := by
  rw [readFromFD, if_neg (by omega)]

/-- From line 265 on, the machine does what `receivePayload` says. -/
theorem run_receivePayload (s : Server) (c : Conn) (hrun : s.status = .running)
    (hpc : s.pc = .readBody) (hrd : s.rd = readInit (s.fileSize : Int) s.errno)
    (hconn : s.conn = some c) (hfs : s.fileSize < 4294967296)
    (hnb : (receivePayload s.pccTable c s.fileSize s.errno).ending ≠ .blocked) :
    ∃ n, Simulates s (run s (List.replicate n .main))
      (receivePayload s.pccTable c s.fileSize s.errno) := by
  rw [receivePayload] at hnb ⊢
  cases hl : readLoop (readInit (s.fileSize : Int) s.errno) c.rx with
  | none =>
    exfalso
    apply hnb
    have : readFromFD c.rx (s.fileSize : Int) s.errno =
        { outcome := .blocked, buf := [], errno := s.errno, rest := [] } := by
      rw [readFromFD_nonneg, hl]
    simp only [this]
  | some p =>
    obtain ⟨st, rest⟩ := p
    have hr : readFromFD c.rx (s.fileSize : Int) s.errno =
        { outcome := readFinish st, buf := st.buf, errno := st.errno, rest := rest } := by
      rw [readFromFD_nonneg, hl]
    simp only [hr] at hnb ⊢
    obtain ⟨n1, hn1⟩ := run_readLoop .gotBody c.rx s c st rest hrun (Or.inr ⟨hpc, rfl⟩) hconn rfl
      (by rw [hrd]; exact hl)
    rcases readFinish_cases st with ⟨v, hv⟩ | hv
    · by_cases hv1 : v = -1
      · have hstep : mainStep { s with rd := st, conn := some { c with rx := rest }, pc := .gotBody } =
            some { s with rd := st, conn := some { c with rx := rest }, errno := st.errno,
                          pc := .loopTest } := by
          rw [mainStep]
          simp only [hrun, stepGot, hv, hv1, if_true]
        have hfin := run_main_trans s _ _ n1 1 hn1 (run_main_of_step _ _ _ 0 hstep rfl)
        refine ⟨n1 + 1, ?_⟩
        rw [hfin]
        simp only [hv, hv1, if_true]
        exact ⟨rfl, rfl, rfl, rfl, Or.inl ⟨Or.inl rfl, rfl, hrun, rfl, rfl, rfl⟩⟩
      · have hstep : mainStep { s with rd := st, conn := some { c with rx := rest }, pc := .gotBody } =
            some { s with rd := st, conn := some { c with rx := rest }, errno := st.errno,
                          buf := st.buf, i := 0, pcc := 0, pc := .count } := by
          rw [mainStep]
          simp only [hrun, stepGot, hv, hv1, if_false]
        have h1 := run_main_trans s _ _ n1 1 hn1 (run_main_of_step _ _ _ 0 hstep rfl)
        simp only [hv, hv1, if_false] at hnb ⊢
        obtain ⟨n2, hn2⟩ := run_answerClient
          { s with rd := st, conn := some { c with rx := rest }, errno := st.errno,
                   buf := st.buf, i := 0, pcc := 0, pc := .count }
          { c with rx := rest } hrun rfl rfl rfl rfl hfs hnb
        refine ⟨n1 + 1 + n2, ?_⟩
        rw [run_main_trans s _ _ (n1 + 1) n2 h1 rfl]
        exact Simulates.of_eq hn2 rfl rfl rfl rfl
    · have hstep : mainStep { s with rd := st, conn := some { c with rx := rest }, pc := .gotBody } =
          some { s with rd := st, conn := some { c with rx := rest }, errno := st.errno,
                        pc := .gotBody, status := .exited EXIT_FAILURE } := by
        rw [mainStep]
        simp only [hrun, stepGot, hv]
      have hfin := run_main_trans s _ _ n1 1 hn1 (run_main_of_step _ _ _ 0 hstep rfl)
      refine ⟨n1 + 1, ?_⟩
      rw [hfin]
      simp only [hv]
      exact ⟨rfl, rfl, rfl, rfl, Or.inr (Or.inl ⟨EXIT_FAILURE, rfl, rfl, rfl, rfl⟩)⟩

/-- The step machine and `serveClient` agree. From line 244, with the descriptor
of an accepted connection in `connFD`, the steps of `main` lead, unless a call
never returns, to the table, connection, `errno` and way of ending that
`serveClient` computes. -/
theorem run_serveClient (s : Server) (c : Conn) (hrun : s.status = .running)
    (hpc : s.pc = .checkConn) (hfd : 0 ≤ s.connFD) (hconn : s.conn = some c)
    (hnb : (serveClient s.pccTable c s.errno).ending ≠ .blocked) :
    ∃ n, Simulates s (run s (List.replicate n .main)) (serveClient s.pccTable c s.errno) := by
  have hstep0 : mainStep s = some { s with rd := readInit 4 s.errno, pc := .readSize } := by
    rw [mainStep]
    simp only [hrun, hpc]
    rw [if_neg (by omega)]
  rw [serveClient] at hnb ⊢
  have hrf := readFromFD_nonneg c.rx 4 s.errno
  simp only [Nat.cast_ofNat] at hrf
  cases hl : readLoop (readInit 4 s.errno) c.rx with
  | none =>
    exfalso
    apply hnb
    rw [hl] at hrf
    simp only [hrf]
  | some p =>
    obtain ⟨st, rest⟩ := p
    rw [hl] at hrf
    simp only [hrf] at hnb ⊢
    obtain ⟨n1, hn1⟩ := run_readLoop .gotSize c.rx
      { s with rd := readInit 4 s.errno, pc := .readSize } c st rest hrun (Or.inl ⟨rfl, rfl⟩)
      hconn rfl hl
    have h01 := run_main_of_step s _ _ n1 hstep0 hn1
    simp only [] at h01
    rcases readFinish_cases st with ⟨v, hv⟩ | hv
    · by_cases hv1 : v = -1
      · have hstep : mainStep { s with rd := st, conn := some { c with rx := rest }, pc := .gotSize } =
            some { s with rd := st, conn := some { c with rx := rest }, errno := st.errno,
                          pc := .loopTest } := by
          rw [mainStep]
          simp only [hrun, stepGot, hv, hv1, if_true]
        have hfin := run_main_trans s _ _ (n1 + 1) 1 h01 (run_main_of_step _ _ _ 0 hstep rfl)
        refine ⟨n1 + 1 + 1, ?_⟩
        rw [hfin]
        simp only [hv, hv1, if_true]
        exact ⟨rfl, rfl, rfl, rfl, Or.inl ⟨Or.inl rfl, rfl, hrun, rfl, rfl, rfl⟩⟩
      · have hstep : mainStep { s with rd := st, conn := some { c with rx := rest }, pc := .gotSize } =
            some { s with conn := some { c with rx := rest }, errno := st.errno,
                          fileSize := ntohl st.buf, rd := readInit (ntohl st.buf) st.errno,
                          pc := .readBody } := by
          rw [mainStep]
          simp only [hrun, stepGot, hv, hv1, if_false]
        have h1 := run_main_trans s _ _ (n1 + 1) 1 h01 (run_main_of_step _ _ _ 0 hstep rfl)
        simp only [hv, hv1, if_false] at hnb ⊢
        obtain ⟨n2, hn2⟩ := run_receivePayload
          { s with conn := some { c with rx := rest }, errno := st.errno,
                   fileSize := ntohl st.buf, rd := readInit (ntohl st.buf) st.errno,
                   pc := .readBody }
          { c with rx := rest } hrun rfl rfl rfl (ntohl_lt _) hnb
        refine ⟨n1 + 1 + 1 + n2, ?_⟩
        rw [run_main_trans s _ _ (n1 + 1 + 1) n2 h1 rfl]
        exact Simulates.of_eq hn2 rfl rfl rfl rfl
    · have hstep : mainStep { s with rd := st, conn := some { c with rx := rest }, pc := .gotSize } =
          some { s with rd := st, conn := some { c with rx := rest }, errno := st.errno,
                        pc := .gotSize, status := .exited EXIT_FAILURE } := by
        rw [mainStep]
        simp only [hrun, stepGot, hv]
      have hfin := run_main_trans s _ _ (n1 + 1) 1 h01 (run_main_of_step _ _ _ 0 hstep rfl)
      refine ⟨n1 + 1 + 1, ?_⟩
      rw [hfin]
      simp only [hv]
      exact ⟨rfl, rfl, rfl, rfl, Or.inr (Or.inl ⟨EXIT_FAILURE, rfl, rfl, rfl, rfl⟩)⟩

/-! ## C1, C2, C10: the counter and the histogram -/

theorem calcPCCBody_table_safe (buf : List Byte) (i : Int) (pcc : Nat) (tbl : Table)
    (idx : Int) : calcPCCBody buf i pcc tbl ≠ .error (.tableIndex idx) := by
  rw [calcPCCBody]
  cases readBuf buf i with
  | none => simp
  | some c =>
    by_cases hc : 32 ≤ c ∧ c ≤ 126
    · have hin : 0 ≤ c - 32 ∧ (c - 32).toNat < PCCSize := by
        unfold PCCSize
        omega
      simp only [hc, and_self, if_true, incrSlot, hin]
      simp
    · simp only [hc, if_false]
      simp

theorem calcPCCLoop_table_safe (buf : List Byte) (size : Nat) (idx : Int) :
    ∀ (fuel : Nat) (i : Int) (pcc : Nat) (tbl : Table),
      calcPCCLoop buf size fuel i pcc tbl ≠ .error (.tableIndex idx) := by
  intro fuel
  induction fuel with
  | zero =>
    intro i pcc tbl
    rw [calcPCCLoop]
    split <;> simp
  | succ fuel ih =>
    intro i pcc tbl
    rw [calcPCCLoop]
    split
    · cases hb : calcPCCBody buf i pcc tbl with
      | error f =>
        simp only []
        intro h
        injection h with h
        exact calcPCCBody_table_safe buf i pcc tbl idx (by rw [hb, h])
      | ok r =>
        simp only []
        exact ih _ _ _
    · simp

/-- C1 fails on buffers of more than `2^31` bytes. For the buffer of
`2147483649` bytes `'A'` and `size = 2147483649`, `calcPCC` does not return
the number `2147483649` of printable bytes: after `i = 2147483647` the `int`
counter wraps to `-2147483648`, the test `i < size` (made on `unsigned`
values) still holds, and the loop reads `buf[-2147483648]`. -/
theorem calcPCC_int_counter_overrun :
    calcPCC (List.replicate 2147483649 65) 2147483649 zeroTable =
      .error (.bufIndex (-2147483648)) := by
  have h := calcPCC_wraps (List.replicate 2147483649 65) zeroTable
    (by rw [List.length_replicate]; omega)
  rw [List.length_replicate] at h
  exact h

/-- The table accumulates over buffers of at most `2^31` bytes. Starting from
the all-zero table that the start-up code sets up, run `calcPCC` on the
buffers `bufs` in turn. The runs all return when no buffer is longer than
`2^31` bytes; and whenever they all return, each returned the number of
printable bytes of its buffer and, for every `v` in `[32, 126]`, slot `v - 32`
holds the number of bytes equal to `v` over all the buffers, modulo `2^32`. A
non-printable byte changes no slot. -/
theorem calcPCCSeq_accumulates (bufs : List (List Byte)) :
    ((∀ b ∈ bufs, b.length ≤ 2147483648) → ∃ r, calcPCCSeq zeroTable bufs = .ok r) ∧
    (∀ (rets : List Nat) (tbl : Table), calcPCCSeq zeroTable bufs = .ok (rets, tbl) →
      rets = bufs.map countPrintable ∧
        ∀ v : Nat, 32 ≤ v → v ≤ 126 →
          tbl.getD (v - 32) 0 = occurrences v bufs.flatten % 4294967296) ∧
    (∀ (tbl : Table) (b : Byte), printable b = false → calcPCC [b] 1 tbl = .ok (0, tbl)) := by
  refine ⟨fun h => ⟨_, calcPCCSeq_ok bufs zeroTable h⟩, fun rets tbl h => ?_, fun tbl b hb => ?_⟩
  · obtain ⟨_, hr⟩ := calcPCCSeq_ok_inv bufs zeroTable (rets, tbl) h
    injection hr with h1 h2
    refine ⟨h1, fun v h32 h126 => ?_⟩
    rw [h2]
    exact tally_zeroTable v h32 h126 bufs.flatten
  · have h := calcPCC_ok [b] tbl (by simp)
    have h1 : countFrom 0 [b] = 0 := by simp [countFrom, hb]
    have h2 : tally tbl [b] = tbl := by simp [tally, tallyByte, hb]
    rw [h1, h2] at h
    exact h

/-- The scenario of the specification: after `"AAA"` and then `"  B\x01"` both
calls returned 3 and the slots of `'A'`, `' '` and `'B'` hold 3, 2 and 1. -/
theorem calcPCCSeq_accumulates_scenario :
    calcPCCSeq zeroTable [[65, 65, 65], [32, 32, 66, 1]] =
        .ok ([3, 3], ((zeroTable.set 33 3).set 0 2).set 34 1) ∧
      ([3, 3] = [[65, 65, 65], [32, 32, 66, 1]].map countPrintable ∧
        ∀ v : Nat, 32 ≤ v → v ≤ 126 →
          (((zeroTable.set 33 3).set 0 2).set 34 1).getD (v - 32) 0 =
            occurrences v [[65, 65, 65], [32, 32, 66, 1]].flatten % 4294967296) ∧
      (((zeroTable.set 33 3).set 0 2).set 34 1).getD (65 - 32) 0 = 3 ∧
      (((zeroTable.set 33 3).set 0 2).set 34 1).getD (32 - 32) 0 = 2 ∧
      (((zeroTable.set 33 3).set 0 2).set 34 1).getD (66 - 32) 0 = 1 :=
  ⟨by decide,
    (calcPCCSeq_accumulates [[65, 65, 65], [32, 32, 66, 1]]).2.1 [3, 3]
      (((zeroTable.set 33 3).set 0 2).set 34 1) (by decide),
    by decide, by decide, by decide⟩

/-- C2 fails on a sequence that holds a buffer of more than `2^31` bytes.
Starting from the all-zero table, run `calcPCC` on the single buffer of
`2147483649` bytes `'A'`: the run does not end with `2147483649` in slot `33`,
the number of bytes equal to `'A'` modulo `2^32`. After `2^31` bytes the `int`
counter wraps to `-2147483648`, the test `i < size` still holds, and the loop
reads `buf[-2147483648]`; no table is returned, for any results and table. -/
theorem pccTable_huge_buffer_not_accumulated :
    calcPCCSeq zeroTable [List.replicate 2147483649 65] =
        .error (.bufIndex (-2147483648)) ∧
      (∀ (rets : List Nat) (tbl : Table),
        calcPCCSeq zeroTable [List.replicate 2147483649 65] ≠ .ok (rets, tbl)) ∧
      occurrences 65 [List.replicate 2147483649 65].flatten % 4294967296 = 2147483649 := by
  have h := calcPCC_wraps (List.replicate 2147483649 65) zeroTable
    (by rw [List.length_replicate]; omega)
  have hseq : calcPCCSeq zeroTable [List.replicate 2147483649 65] =
      .error (.bufIndex (-2147483648)) := by
    rw [calcPCCSeq, h]
  refine ⟨hseq, fun rets tbl hok => ?_, ?_⟩
  · rw [hseq] at hok
    cases hok
  · have hfl : [List.replicate 2147483649 (65 : Byte)].flatten =
        List.replicate 2147483649 65 := by
      rw [List.flatten_cons, List.flatten_nil, List.append_nil]
    have hall : ∀ n : Nat, occurrences 65 (List.replicate n (65 : Byte)) = n := by
      intro n
      induction n with
      | zero => rfl
      | succ k ih =>
        rw [occurrences] at ih ⊢
        rw [List.replicate_succ, List.countP_cons, ih]
        rfl
    rw [hfl, hall]

/-- C10. For every buffer, size and table, `calcPCC` never accesses `pccTable`
outside `0 .. 94`: whatever the byte (octets from 128 upwards read as negative
`char` values), the index `buf[i] - 32` it uses lies in `0 .. 94`. And
`printTotalPCC` prints 95 lines, line `i` reporting character code `i + 32`
with the contents of slot `i`. -/
theorem pccTable_access_in_bounds (buf : List Byte) (size : Nat) (tbl : Table) :
    (∀ idx : Int, calcPCC buf size tbl ≠ .error (.tableIndex idx)) ∧
    (∀ (i : Int) (pcc : Nat) (idx : Int),
      calcPCCBody buf i pcc tbl ≠ .error (.tableIndex idx)) ∧
    (∀ b : Byte, 32 ≤ charVal b ∧ charVal b ≤ 126 →
      0 ≤ charVal b - 32 ∧ charVal b - 32 ≤ 94 ∧
        incrSlot tbl (charVal b - 32) ≠ none) ∧
    (∀ b : Byte, 128 ≤ b.val → charVal b < 0 ∧ tallyByte tbl b = tbl) ∧
    (printTotalPCC tbl).length = PCCSize ∧
    (∀ i : Nat, i < PCCSize → (printTotalPCC tbl)[i]? = some (i + 32, tbl.getD i 0)) := by
  refine ⟨fun idx => calcPCCLoop_table_safe buf size idx _ _ _ _,
    fun i pcc idx => calcPCCBody_table_safe buf i pcc tbl idx, fun b hb => ?_, fun b hb => ?_,
    ?_, fun i hi => ?_⟩
  · have hin : 0 ≤ charVal b - 32 ∧ (charVal b - 32).toNat < PCCSize := by
      unfold PCCSize
      omega
    refine ⟨by omega, by omega, ?_⟩
    simp only [incrSlot, hin, and_self, if_true]
    simp
  · have hlt := b.isLt
    have hc : charVal b < 0 := by
      rw [charVal, if_neg (by omega)]
      omega
    have hp : printable b = false := by
      simp only [printable, Bool.and_eq_false_imp, decide_eq_true_eq, decide_eq_false_iff_not]
      omega
    exact ⟨hc, by simp [tallyByte, hp]⟩
  · simp [printTotalPCC]
  · simp [printTotalPCC, List.getElem?_map, List.getElem?_range hi]

/-! ## C3, C6: one connection -/

theorem hugeClient_chunks : ∀ c ∈ [List.replicate 2147483648 (65 : Byte), [65]], c ≠ [] := by
  intro c hc
  simp only [List.mem_cons, List.mem_singleton, List.not_mem_nil, or_false] at hc
  rcases hc with hc | hc
  · intro h
    rw [hc] at h
    have hl := congrArg List.length h
    rw [List.length_replicate, List.length_nil] at hl
    omega
  · rw [hc]
    intro h
    cases h

theorem hugeClient_length :
    [List.replicate 2147483648 (65 : Byte), [65]].flatten.length = 2147483649 := by
  simp only [List.flatten_cons, List.flatten_nil, List.length_append, List.length_replicate,
    List.length_cons, List.length_nil]

/-- C3 fails for `N` above `2^31`. With the length prefix `2147483649` followed
by that many bytes `'A'` (all printable), the body of the loop does not write
the four bytes of `2147483649`: it writes nothing, because `calcPCC` reads
`buf[-2147483648]` once its `int` counter has wrapped. -/
theorem serveClient_huge_payload_crashes :
    serveClient zeroTable hugeClient 0 =
      ⟨.crashed, zeroTable, ⟨[], [.wrote 4], [], false⟩, 0⟩ := by
  have h1 : ∀ c ∈ [htonl 2147483649], c ≠ [] := by
    intro c hc
    rw [List.mem_singleton] at hc
    rw [hc]
    intro h
    cases h
  have h := serveClient_frame zeroTable 2147483649 (by omega) [htonl 2147483649]
    [List.replicate 2147483648 65, [65]] h1 hugeClient_chunks rfl hugeClient_length []
    [.wrote 4] [] false 0
  have hc : hugeClient = ⟨[htonl 2147483649].map ReadEv.data ++
      ([List.replicate 2147483648 65, [65]].map ReadEv.data ++ []), [.wrote 4], [], false⟩ := rfl
  rw [hc, h]
  exact answerClient_crash zeroTable _ _ 2147483649 hugeClient_length (by omega) 0

theorem serveClient_size_terminated (tbl : Table) (c : Conn) (e : Nat)
    (h : (readFromFD c.rx 4 e).outcome = .returned (-1)) :
    serveClient tbl c e =
      ⟨.continued, tbl, { c with rx := (readFromFD c.rx 4 e).rest }, (readFromFD c.rx 4 e).errno⟩ := by
  rw [serveClient]
  simp only [h]
  rw [if_pos trivial]

theorem serveClient_payload_terminated (tbl : Table) (c : Conn) (e : Nat) (v : Int)
    (h1 : (readFromFD c.rx 4 e).outcome = .returned v) (hv : v ≠ -1)
    (h2 : (readFromFD (readFromFD c.rx 4 e).rest (ntohl (readFromFD c.rx 4 e).buf)
      (readFromFD c.rx 4 e).errno).outcome = .returned (-1)) :
    serveClient tbl c e =
      ⟨.continued, tbl,
        { c with rx := (readFromFD (readFromFD c.rx 4 e).rest (ntohl (readFromFD c.rx 4 e).buf)
          (readFromFD c.rx 4 e).errno).rest },
        (readFromFD (readFromFD c.rx 4 e).rest (ntohl (readFromFD c.rx 4 e).buf)
          (readFromFD c.rx 4 e).errno).errno⟩ := by
  rw [serveClient]
  simp only [h1]
  rw [if_neg hv, receivePayload]
  simp only [h2]
  rw [if_pos trivial]

/-- C6. When `readFromFD` returns `-1` while the body of the accept loop is
receiving the length prefix or the payload of a connection, whatever had
arrived before, the body ends by `continue`: nothing has been written to the
connection, no `write` has been issued on it, it has not been closed, the
table is unchanged, and the process has not ended. In particular this is so
when the prefix announces `N` bytes and the connection terminates after any
number of payload bytes below `N`. In the step machine, from line 244 the steps
of `main` then lead to the test of the loop, the process running, with table,
connection output and standard output as they were; and from there,
`receivedSIGINT` being `0`, to line 237 and on to the `accept` of line 240. -/
theorem terminated_read_abandons_connection (tbl : Table) (c : Conn) (e : Nat) :
    ((readFromFD c.rx 4 e).outcome = .returned (-1) →
      (serveClient tbl c e).ending = .continued ∧ (serveClient tbl c e).tbl = tbl ∧
        (serveClient tbl c e).conn.out = c.out ∧ (serveClient tbl c e).conn.tx = c.tx ∧
        (serveClient tbl c e).conn.closed = c.closed) ∧
    (∀ v : Int, (readFromFD c.rx 4 e).outcome = .returned v → v ≠ -1 →
      (readFromFD (readFromFD c.rx 4 e).rest (ntohl (readFromFD c.rx 4 e).buf)
        (readFromFD c.rx 4 e).errno).outcome = .returned (-1) →
      (serveClient tbl c e).ending = .continued ∧ (serveClient tbl c e).tbl = tbl ∧
        (serveClient tbl c e).conn.out = c.out ∧ (serveClient tbl c e).conn.tx = c.tx ∧
        (serveClient tbl c e).conn.closed = c.closed) ∧
    (∀ (N : Nat) (cs1 cs2 : List (List Byte)) (ev : ReadEv) (rest : List ReadEv),
      N < 4294967296 → (∀ x ∈ cs1, x ≠ []) → (∀ x ∈ cs2, x ≠ []) → cs1.flatten = htonl N →
      cs2.flatten.length < N → ev.terminates →
      c.rx = cs1.map ReadEv.data ++ (cs2.map ReadEv.data ++ ev :: rest) →
      serveClient tbl c e =
        ⟨.continued, tbl, { c with rx := rest },
          (readFromFD (cs2.map ReadEv.data ++ ev :: rest) N e).errno⟩) ∧
    (∀ s : Server, s.status = .running → s.pc = .checkConn → 0 ≤ s.connFD →
      s.conn = some c → s.pccTable = tbl → s.errno = e →
      (serveClient tbl c e).ending = .continued → (serveClient tbl c e).tbl = tbl →
      (serveClient tbl c e).conn.out = c.out →
      ∃ n : Nat,
        (run s (List.replicate n .main)).pc = .loopTest ∧
        (run s (List.replicate n .main)).status = .running ∧
        (run s (List.replicate n .main)).pccTable = tbl ∧
        (run s (List.replicate n .main)).conn.map Conn.out = some c.out ∧
        (run s (List.replicate n .main)).stdout = s.stdout ∧
        (run s (List.replicate n .main)).receivedSIGINT = s.receivedSIGINT ∧
        (s.receivedSIGINT = 0 →
          (run s (List.replicate n .main ++ [.main])).pc = .setIdle ∧
          (run s (List.replicate n .main ++ [.main, .main])).pc = .doAccept ∧
          (run s (List.replicate n .main ++ [.main, .main])).status = .running)) := by
  refine ⟨fun h => ?_, fun v h1 hv h2 => ?_, ?_, ?_⟩
  · rw [serveClient_size_terminated tbl c e h]
    exact ⟨rfl, rfl, rfl, rfl, rfl⟩
  · rw [serveClient_payload_terminated tbl c e v h1 hv h2]
    exact ⟨rfl, rfl, rfl, rfl, rfl⟩
  · intro N cs1 cs2 ev rest hN hc1 hc2 hpre hlen hterm hrx
    have hr1 := readFromFD_complete cs1 4 e (cs2.map ReadEv.data ++ ev :: rest) hc1
      (by rw [hpre, htonl_length]; rfl)
    have hr2 := (readFromFD_stops cs2 (N : Int) e ev rest hc2 (by omega)).1 hterm
    rw [serveClient, hrx]
    simp only [hr1]
    rw [if_neg (by decide), receivePayload, hpre, ntohl_htonl N hN]
    simp only [hr2.1]
    rw [if_pos trivial]
    simp only [hr2.2]
  · intro s hrun hpc hfd hconn htbl herr hend hrt hout
    subst htbl herr
    obtain ⟨n, h1, h2, h3, _, h5⟩ := run_serveClient s c hrun hpc hfd hconn
      (by rw [hend]; intro hc; cases hc)
    refine ⟨n, ?_⟩
    rcases h5 with ⟨_, k1, k2, k3, k4, _⟩ | ⟨st, k, _⟩ | ⟨k, _⟩
    · refine ⟨k1, k2, k3.trans hrt, by rw [k4, Option.map_some', hout], h3, h2, fun hflag => ?_⟩
      have hflag' : (run s (List.replicate n .main)).receivedSIGINT = 0 := h2.trans hflag
      have hs1 : mainStep (run s (List.replicate n .main)) =
          some { run s (List.replicate n .main) with pc := .setIdle } := by
        rw [mainStep]
        simp only [k1, k2, hflag', if_true]
      have hs2 : mainStep { run s (List.replicate n .main) with pc := .setIdle } =
          some { run s (List.replicate n .main) with handlingClient := 0, pc := .doAccept } := by
        rw [mainStep]
        simp only [k2]
      have hr1 : run (run s (List.replicate n .main)) [.main] =
          { run s (List.replicate n .main) with pc := .setIdle } := by
        rw [run, hs1]
        rfl
      have hr2 : run (run s (List.replicate n .main)) [.main, .main] =
          { run s (List.replicate n .main) with handlingClient := 0, pc := .doAccept } := by
        rw [run, hs1]
        simp only []
        rw [run, hs2]
        rfl
      rw [run_append, run_append, hr1, hr2]
      exact ⟨rfl, rfl, k2⟩
    · rw [hend] at k; cases k
    · rw [hend] at k; cases k

/-- C6, on a concrete connection: the client announces five bytes, sends two
and closes; the body of the loop ends by `continue` with table and connection
output untouched. -/
theorem terminated_read_abandons_connection_witness :
    (readFromFD quitter.rx 4 0).outcome = .returned 4 ∧
      (readFromFD (readFromFD quitter.rx 4 0).rest (ntohl (readFromFD quitter.rx 4 0).buf)
        (readFromFD quitter.rx 4 0).errno).outcome = .returned (-1) ∧
      ((serveClient zeroTable quitter 0).ending = .continued ∧
        (serveClient zeroTable quitter 0).tbl = zeroTable ∧
        (serveClient zeroTable quitter 0).conn.out = quitter.out ∧
        (serveClient zeroTable quitter 0).conn.tx = quitter.tx ∧
        (serveClient zeroTable quitter 0).conn.closed = quitter.closed) :=
  ⟨by decide, by decide,
    (terminated_read_abandons_connection zeroTable quitter 0).2.1 4 (by decide) (by decide)
      (by decide)⟩

/-! ## C4, C5: the framed I/O primitives -/

/-- C4. For every requested size and every sequence of results of the
underlying `read` calls, each at most the number of bytes requested of it, the
server's `readFromFD` returns a non-negative value `v` only if `v` equals
`size`, the calls it consumed returned non-empty chunks and the buffer holds
their concatenation in order, so it never returns a count strictly between
`0` and `size`; and whenever the results start with non-empty chunks that add
up to `size`, however short each of them is, it consumes them all, a further
`read` being issued after every short one, and returns `size`. -/
theorem readFromFD_returns_all_or_nothing (evs : List ReadEv) (size : Int) (e : Nat) :
    (∀ v : Int, validReads evs size = true →
      (readFromFD evs size e).outcome = .returned v → 0 ≤ v →
        v = size ∧ ¬ (0 < v ∧ v < size) ∧
          ∃ chunks : List (List Byte), (∀ c ∈ chunks, c ≠ []) ∧
            evs = chunks.map ReadEv.data ++ (readFromFD evs size e).rest ∧
            (readFromFD evs size e).buf = chunks.flatten) ∧
    (∀ (chunks : List (List Byte)) (rest : List ReadEv),
      evs = chunks.map ReadEv.data ++ rest → (∀ c ∈ chunks, c ≠ []) →
        (chunks.flatten.length : Int) = size →
          readFromFD evs size e = ⟨.returned size, chunks.flatten, e, rest⟩) := by
  refine ⟨fun v hvalid hret hv => ?_, fun chunks rest h1 h2 h3 => ?_⟩
  · rcases lt_trichotomy size 0 with hs | hs | hs
    · rw [readFromFD_neg evs size e hs] at hret
      cases hret
    · subst hs
      rw [readFromFD_zero] at hret ⊢
      injection hret with hret
      exact ⟨hret.symm, by omega, [], by simp, by simp, rfl⟩
    · rcases readFromFD_cases evs size e hs hvalid with h | h | h | h
      · rw [h.2] at hret
        injection hret with hret
        omega
      · rw [h.2] at hret
        cases hret
      · rw [h.2] at hret
        cases hret
      · obtain ⟨chunks, rest, h1, h2, h3⟩ := h
        rw [h3] at hret ⊢
        injection hret with hret
        exact ⟨hret.symm, by omega, chunks, h2, h1, rfl⟩
  · rw [h1]
    exact readFromFD_complete chunks size e rest h2 h3

/-- C4, on concrete results: five bytes requested, delivered as two, one and
two bytes, with a sixth byte pending. -/
theorem readFromFD_returns_all_or_nothing_witness :
    validReads [.data [1, 2], .data [3], .data [4, 5], .data [6]] 5 = true ∧
      (readFromFD [.data [1, 2], .data [3], .data [4, 5], .data [6]] 5 0).outcome =
        .returned 5 ∧
      ((5 : Int) = 5 ∧ ¬ (0 < (5 : Int) ∧ (5 : Int) < 5) ∧
        ∃ chunks : List (List Byte), (∀ c ∈ chunks, c ≠ []) ∧
          [ReadEv.data [1, 2], .data [3], .data [4, 5], .data [6]] =
            chunks.map ReadEv.data ++
              (readFromFD [.data [1, 2], .data [3], .data [4, 5], .data [6]] 5 0).rest ∧
          (readFromFD [.data [1, 2], .data [3], .data [4, 5], .data [6]] 5 0).buf =
            chunks.flatten) :=
  ⟨by decide, by decide,
    (readFromFD_returns_all_or_nothing [.data [1, 2], .data [3], .data [4, 5], .data [6]] 5 0).1
      5 (by decide) (by decide) (by decide)⟩

/-- C5. For the server's `readFromFD` and `write2FD` with `size > 0` (and
results within what was requested): the call returns `-1` exactly when some
underlying call returned `0`, or `-1` with `errno` one of `ETIMEDOUT`,
`ECONNRESET`, `EPIPE`, before `size` bytes were transferred; it ends the
process with `exit(EXIT_FAILURE)` exactly when an underlying call returned
`-1` with any other `errno`; it never returns exactly when the underlying
call never does; and in every other case it returns `size`. -/
theorem io_outcome_classification (size : Int) (hsize : 0 < size)
    (hmax : size < 9223372036854775808) :
    (∀ (evs : List ReadEv) (e : Nat), validReads evs size = true →
      ((readFromFD evs size e).outcome = .returned (-1) ↔
          ReadStopsWith evs size ReadEv.terminates) ∧
        ((readFromFD evs size e).outcome = .exited EXIT_FAILURE ↔
          ReadStopsWith evs size ReadEv.fatal) ∧
        ((∃ s, (readFromFD evs size e).outcome = .exited s) ↔
          ReadStopsWith evs size ReadEv.fatal) ∧
        ((readFromFD evs size e).outcome = .blocked ↔ ReadStarves evs size) ∧
        (¬ ReadStopsWith evs size ReadEv.terminates → ¬ ReadStopsWith evs size ReadEv.fatal →
          ¬ ReadStarves evs size → (readFromFD evs size e).outcome = .returned size)) ∧
    (∀ (evs : List WriteEv) (buf : List Byte) (e : Nat), validWrites evs size = true →
      ((write2FD evs buf size e).outcome = .returned (-1) ↔
          WriteStopsWith evs size WriteEv.terminates) ∧
        ((write2FD evs buf size e).outcome = .exited EXIT_FAILURE ↔
          WriteStopsWith evs size WriteEv.fatal) ∧
        ((∃ s, (write2FD evs buf size e).outcome = .exited s) ↔
          WriteStopsWith evs size WriteEv.fatal) ∧
        ((write2FD evs buf size e).outcome = .blocked ↔ WriteStarves evs size) ∧
        (¬ WriteStopsWith evs size WriteEv.terminates →
          ¬ WriteStopsWith evs size WriteEv.fatal →
          ¬ WriteStarves evs size → (write2FD evs buf size e).outcome = .returned size)) := by
  constructor
  · intro evs e hvalid
    have hc := readFromFD_cases evs size e hsize hvalid
    have hterm : ReadStopsWith evs size ReadEv.terminates →
        (readFromFD evs size e).outcome = .returned (-1) := by
      rintro ⟨chunks, ev, rest, h1, h2, h3, h4⟩
      rw [h1]
      exact ((readFromFD_stops chunks size e ev rest h2 h3).1 h4).1
    have hfatal : ReadStopsWith evs size ReadEv.fatal →
        (readFromFD evs size e).outcome = .exited EXIT_FAILURE := by
      rintro ⟨chunks, ev, rest, h1, h2, h3, h4⟩
      rw [h1]
      exact (readFromFD_stops chunks size e ev rest h2 h3).2 h4
    have hstarve : ReadStarves evs size → (readFromFD evs size e).outcome = .blocked := by
      rintro ⟨chunks, h1, h2, h3⟩
      rw [h1]
      exact readFromFD_exhausted chunks size e h2 h3
    refine ⟨Iff.intro ?_ hterm, Iff.intro ?_ hfatal, Iff.intro ?_ ?_, Iff.intro ?_ hstarve, ?_⟩
    · intro h
      rcases hc with c | c | c | ⟨_, _, _, _, c⟩
      · exact c.1
      · rw [c.2] at h; cases h
      · rw [c.2] at h; cases h
      · rw [c] at h; injection h with h; omega
    · intro h
      rcases hc with c | c | c | ⟨_, _, _, _, c⟩
      · rw [c.2] at h; cases h
      · exact c.1
      · rw [c.2] at h; cases h
      · rw [c] at h; cases h
    · rintro ⟨st, h⟩
      rcases hc with c | c | c | ⟨_, _, _, _, c⟩
      · rw [c.2] at h; cases h
      · exact c.1
      · rw [c.2] at h; cases h
      · rw [c] at h; cases h
    · intro h
      exact ⟨EXIT_FAILURE, hfatal h⟩
    · intro h
      rcases hc with c | c | c | ⟨_, _, _, _, c⟩
      · rw [c.2] at h; cases h
      · rw [c.2] at h; cases h
      · exact c.1
      · rw [c] at h; cases h
    · intro n1 n2 n3
      rcases hc with c | c | c | ⟨_, _, _, _, c⟩
      · exact absurd c.1 n1
      · exact absurd c.1 n2
      · exact absurd c.1 n3
      · rw [c]
  · intro evs buf e hvalid
    have hc := write2FD_cases evs buf size e hsize hmax hvalid
    have hterm : WriteStopsWith evs size WriteEv.terminates →
        (write2FD evs buf size e).outcome = .returned (-1) := by
      rintro ⟨ks, ev, rest, h1, h2, h3, h4⟩
      rw [h1]
      exact (write2FD_stops buf ks size e ev rest h2 h3 hmax).1 h4
    have hfatal : WriteStopsWith evs size WriteEv.fatal →
        (write2FD evs buf size e).outcome = .exited EXIT_FAILURE := by
      rintro ⟨ks, ev, rest, h1, h2, h3, h4⟩
      rw [h1]
      exact (write2FD_stops buf ks size e ev rest h2 h3 hmax).2 h4
    have hstarve : WriteStarves evs size → (write2FD evs buf size e).outcome = .blocked := by
      rintro ⟨ks, h1, h2, h3⟩
      rw [h1]
      exact write2FD_exhausted buf ks size e h2 h3 hmax
    refine ⟨Iff.intro ?_ hterm, Iff.intro ?_ hfatal, Iff.intro ?_ ?_, Iff.intro ?_ hstarve, ?_⟩
    · intro h
      rcases hc with c | c | c | ⟨_, _, _, _, c⟩
      · exact c.1
      · rw [c.2] at h; cases h
      · rw [c.2] at h; cases h
      · rw [c] at h; injection h with h; omega
    · intro h
      rcases hc with c | c | c | ⟨_, _, _, _, c⟩
      · rw [c.2] at h; cases h
      · exact c.1
      · rw [c.2] at h; cases h
      · rw [c] at h; cases h
    · rintro ⟨st, h⟩
      rcases hc with c | c | c | ⟨_, _, _, _, c⟩
      · rw [c.2] at h; cases h
      · exact c.1
      · rw [c.2] at h; cases h
      · rw [c] at h; cases h
    · intro h
      exact ⟨EXIT_FAILURE, hfatal h⟩
    · intro h
      rcases hc with c | c | c | ⟨_, _, _, _, c⟩
      · rw [c.2] at h; cases h
      · rw [c.2] at h; cases h
      · exact c.1
      · rw [c] at h; cases h
    · intro n1 n2 n3
      rcases hc with c | c | c | ⟨_, _, _, _, c⟩
      · exact absurd c.1 n1
      · exact absurd c.1 n2
      · exact absurd c.1 n3
      · rw [c]

/-- C5, on concrete results: four bytes requested, one delivered, then the
connection is reset; and four bytes to send, the first `write` failing with
`EBADF` (9). -/
theorem io_outcome_classification_witness :
    (0 : Int) < 4 ∧ (4 : Int) < 9223372036854775808 ∧
      ((readFromFD [.data [7], .fail ECONNRESET] 4 0).outcome = .returned (-1) ↔
        ReadStopsWith [.data [7], .fail ECONNRESET] 4 ReadEv.terminates) ∧
      ((write2FD [.fail 9] [1, 2, 3, 4] 4 0).outcome = .exited EXIT_FAILURE ↔
        WriteStopsWith [.fail 9] 4 WriteEv.fatal) ∧
      (readFromFD [.data [7], .fail ECONNRESET] 4 0).outcome = .returned (-1) ∧
      (write2FD [.fail 9] [1, 2, 3, 4] 4 0).outcome = .exited EXIT_FAILURE :=
  ⟨by decide, by decide,
    ((io_outcome_classification 4 (by decide) (by decide)).1 [.data [7], .fail ECONNRESET] 0
      (by decide)).1,
    ((io_outcome_classification 4 (by decide) (by decide)).2 [.fail 9] [1, 2, 3, 4] 0
      (by decide)).2.1,
    by decide, by decide⟩

/-! ## C7, C8, C9: the server loop interleaved with `handleSIGINT` -/

/-- C9. In every state the server loop interleaved with `handleSIGINT` can
reach, `handlingClient` is `1` while `main` is inside `calcPCC`, and no step
taken there prints the histogram or ends the process cleanly; `handleSIGINT`
prints only when it finds `handlingClient` equal to `0` and otherwise does not
depend on `pccTable`; a step of `main` prints only at line 283, which is
entered only from the test of the loop with `receivedSIGINT` set. -/
theorem print_never_during_calcPCC (accepts : List AcceptEv) (s : Server)
    (h : Reach (initial accepts) s) :
    (s.pc = .count → s.handlingClient = 1) ∧
    (∀ s' : Server, Step s s' → s.pc = .count →
      s'.stdout = s.stdout ∧ s'.status ≠ .exited EXIT_SUCCESS) ∧
    ((handleSIGINT s).stdout ≠ s.stdout → s.handlingClient = 0) ∧
    (s.handlingClient ≠ 0 → ∀ t : Table,
      handleSIGINT { s with pccTable := t } = { handleSIGINT s with pccTable := t }) ∧
    (∀ s' : Server, mainStep s = some s' → s'.stdout ≠ s.stdout → s.pc = .report) ∧
    (∀ s' : Server, mainStep s = some s' → s'.pc = .report →
      s.pc = .loopTest ∧ s.receivedSIGINT ≠ 0) := by
  have hbusy := busy_handlingClient accepts s h
  refine ⟨fun hpc => hbusy (by rw [hpc]; rfl), fun s' hs hpc => ?_, fun hne => ?_, fun hne t => ?_,
    fun s' hm hne => ?_, fun s' hm hpc => ?_⟩
  · have h1 : s.handlingClient = 1 := hbusy (by rw [hpc]; rfl)
    cases hs with
    | main hm =>
      obtain ⟨_, hout, _, _⟩ := mainStep_facts _ _ hm
      have hrun := mainStep_running _ _ hm
      refine ⟨?_, ?_⟩
      · rcases hout with ho | ho
        · exact ho.1
        · rw [hpc] at ho; cases ho.1
      · intro hex
        rw [mainStep, hrun] at hm
        simp only [hpc] at hm
        split at hm
        · split at hm
          · injection hm with hm; subst hm; cases hex
          · injection hm with hm; subst hm
            simp only [hrun] at hex
            cases hex
        · injection hm with hm; subst hm
          simp only [hrun] at hex
          cases hex
    | sigint hst =>
      rw [handleSIGINT_busy s (by omega)]
      exact ⟨rfl, by simp only [hst]; intro hc; cases hc⟩
  · by_contra h0
    exact hne (by rw [handleSIGINT_busy s h0])
  · rw [handleSIGINT_busy s hne, handleSIGINT_busy _ (by exact hne)]
  · obtain ⟨_, hout, _, _⟩ := mainStep_facts _ _ hm
    rcases hout with ho | ho
    · exact absurd ho.1 hne
    · exact ho.1
  · obtain ⟨_, _, _, ht⟩ := mainStep_facts _ _ hm
    rcases ht with t | t | t | t | t | t | t | t
    · rw [t.2.2.1] at hpc; cases hpc
    · exact ⟨t.1, t.2.1⟩
    · rw [t.2.1] at hpc; cases hpc
    · rw [t.2.1] at hpc; cases hpc
    · rw [t.2.1] at hpc; cases hpc
    · rcases t.2.1 with b | b
      · rw [hpc] at b; cases b
      · rw [hpc] at b; cases b
    · rw [t.2.1] at hpc; cases hpc
    · rw [t.2.1] at hpc; cases hpc

/-- C9, at a state the process reaches: eleven steps of `main` after start-up
it is inside `calcPCC` for the first connection, with `handlingClient = 1`. -/
theorem print_never_during_calcPCC_witness :
    (run (initial [.conn 4 lateClient]) (List.replicate 11 .main)).pc = .count ∧
      (run (initial [.conn 4 lateClient]) (List.replicate 11 .main)).handlingClient = 1 :=
  ⟨by decide,
    (print_never_during_calcPCC [.conn 4 lateClient]
      (run (initial [.conn 4 lateClient]) (List.replicate 11 .main)) (reach_run _ _)).1
      (by decide)⟩

/-- C7 fails when the signal arrives between the test of the loop (line 235)
and `handlingClient = 0` (line 237). Sixteen steps of `main` serve a first
connection and pass the test of the loop; `handlingClient` is still `1`, so
`handleSIGINT`, run there, only sets `receivedSIGINT` without printing or
ending the process; the next two steps of `main` set `handlingClient` to `0`
and issue `accept`, which returns a second connection. All of it is a run of
the step relation. -/
theorem accept_issued_after_sigint_while_busy :
    ((run (initial [.conn 4 emptyClient, .conn 5 lateClient]) (List.replicate 16 .main)).pc =
        .setIdle ∧
      (run (initial [.conn 4 emptyClient, .conn 5 lateClient])
        (List.replicate 16 .main)).handlingClient = 1 ∧
      (run (initial [.conn 4 emptyClient, .conn 5 lateClient])
        (List.replicate 16 .main)).receivedSIGINT = 0 ∧
      (run (initial [.conn 4 emptyClient, .conn 5 lateClient])
        (List.replicate 16 .main)).conn = some ⟨[], [], [0, 0, 0, 0], true⟩ ∧
      handleSIGINT (run (initial [.conn 4 emptyClient, .conn 5 lateClient])
          (List.replicate 16 .main)) =
        { run (initial [.conn 4 emptyClient, .conn 5 lateClient]) (List.replicate 16 .main) with
          receivedSIGINT := 1 } ∧
      (run (initial [.conn 4 emptyClient, .conn 5 lateClient])
        (List.replicate 16 .main ++ [.sigint, .main])).pc = .doAccept ∧
      (run (initial [.conn 4 emptyClient, .conn 5 lateClient])
        (List.replicate 16 .main ++ [.sigint, .main, .main])).pc = .setBusy ∧
      (run (initial [.conn 4 emptyClient, .conn 5 lateClient])
        (List.replicate 16 .main ++ [.sigint, .main, .main])).connFD = 5 ∧
      (run (initial [.conn 4 emptyClient, .conn 5 lateClient])
        (List.replicate 16 .main ++ [.sigint, .main, .main])).conn = some lateClient ∧
      (run (initial [.conn 4 emptyClient, .conn 5 lateClient])
        (List.replicate 16 .main ++ [.sigint, .main, .main])).accepts = [] ∧
      (run (initial [.conn 4 emptyClient, .conn 5 lateClient])
        (List.replicate 16 .main ++ [.sigint, .main, .main])).receivedSIGINT = 1 ∧
      (run (initial [.conn 4 emptyClient, .conn 5 lateClient])
        (List.replicate 16 .main ++ [.sigint, .main, .main])).stdout = [] ∧
      (run (initial [.conn 4 emptyClient, .conn 5 lateClient])
        (List.replicate 16 .main ++ [.sigint, .main, .main])).status = .running) ∧
      Reach (initial [.conn 4 emptyClient, .conn 5 lateClient])
        (run (initial [.conn 4 emptyClient, .conn 5 lateClient])
          (List.replicate 16 .main ++ [.sigint, .main, .main])) := by
  constructor
  · decide
  · exact reach_run _ _

/-- C8 fails when the signal arrives between the return of `accept` (line 240)
and `handlingClient = 1` (line 242). Three steps of `main` after start-up
`accept` has returned descriptor 4 for a connection; `handlingClient` is still
`0`, so `handleSIGINT`, run there, prints the histogram and ends the process
with `EXIT_SUCCESS`: the connection has been neither read nor answered nor
closed. -/
theorem shutdown_drops_accepted_connection :
    ((run (initial [.conn 4 lateClient]) [.main, .main, .main]).pc = .setBusy ∧
      (run (initial [.conn 4 lateClient]) [.main, .main, .main]).handlingClient = 0 ∧
      (run (initial [.conn 4 lateClient]) [.main, .main, .main, .sigint]).status =
        .exited EXIT_SUCCESS ∧
      (run (initial [.conn 4 lateClient]) [.main, .main, .main, .sigint]).stdout =
        printTotalPCC zeroTable ∧
      (run (initial [.conn 4 lateClient]) [.main, .main, .main, .sigint]).connFD = 4 ∧
      (run (initial [.conn 4 lateClient]) [.main, .main, .main, .sigint]).conn =
        some lateClient ∧
      (run (initial [.conn 4 lateClient]) [.main, .main, .main, .sigint]).inFlight = true) ∧
      Reach (initial [.conn 4 lateClient])
        (run (initial [.conn 4 lateClient]) [.main, .main, .main, .sigint]) := by
  constructor
  · decide
  · exact reach_run _ _

end PCC
